import Mathlib

/-!
# Verification of the tic-tac-toe minimax engine

Shallow embedding of `src/tic_tac_toe.py` (command-line engine) and the
board-mutation entry point of `src/tic_tac_toe_gui.py`.  Cells of the 3x3
grid are a three-valued enumeration (the source uses the strings `" "`,
`"X"`, `"O"`); a board is a total function from a pair of `Fin 3` indices
to cells, matching the source's `board[i][j]` accesses whose indices are
always in range inside the engine core.
-/

set_option autoImplicit false

namespace TicTacToe

/-- A cell mark: `" "`, `"X"` or `"O"` in the source. -/
inductive Cell where
  | empty : Cell
  | X : Cell
  | O : Cell
deriving DecidableEq, Repr

/-- The board: a 3x3 grid of cells (`board[i][j]` in the source). -/
def Board := Fin 3 → Fin 3 → Cell

instance : DecidableEq Board := by unfold Board; infer_instance

/-- The empty board `[[" " for _ in range(3)] for _ in range(3)]`. -/
def emptyBoard : Board := fun _ _ => Cell.empty

/-- `board[i][j] = v`: overwrite one cell, leaving the rest unchanged. -/
def setCell (b : Board) (c : Fin 3 × Fin 3) (v : Cell) : Board :=
  fun i j => if i = c.1 ∧ j = c.2 then v else b i j

/-- `human_player = "X" if ai_player == "O" else "O"` (tic_tac_toe.py line 90). -/
def other (p : Cell) : Cell := if p = Cell.O then Cell.X else Cell.O

/-- `check_winner(board, player)` (tic_tac_toe.py lines 38-54): rows and
columns for each `i in range(3)`, then the two diagonals.
`tic_tac_toe_gui.py` lines 179-192 duplicate the same logic verbatim. -/
def check_winner (b : Board) (p : Cell) : Bool :=
  ((List.finRange 3).any fun i =>
      ((List.finRange 3).all fun j => b i j = p) ||
      ((List.finRange 3).all fun j => b j i = p)) ||
  ((List.finRange 3).all fun i => b i i = p) ||
  ((List.finRange 3).all fun i => b i (2 - i) = p)

/-- `is_full(board)` (tic_tac_toe.py lines 56-65; duplicated at
tic_tac_toe_gui.py lines 194-196). -/
def is_full (b : Board) : Bool :=
  (List.finRange 3).all fun i => (List.finRange 3).all fun j => !(b i j = Cell.empty)

/-- All nine cells in row-major order, as enumerated by
`for i in range(3) for j in range(3)`. -/
def allCells : List (Fin 3 × Fin 3) :=
  (List.finRange 3).flatMap fun i => (List.finRange 3).map fun j => (i, j)

/-- `get_valid_moves(board)` (tic_tac_toe.py lines 67-76): the row-major
list comprehension `[(i, j) for i in range(3) for j in range(3) if board[i][j] == " "]`. -/
def get_valid_moves (b : Board) : List (Fin 3 × Fin 3) :=
  allCells.filter fun c => b c.1 c.2 = Cell.empty

/-- Number of empty cells: the termination metric of the Python recursion. -/
def emptyCount (b : Board) : Nat := (get_valid_moves b).length

/-- `minimax(board, depth, is_maximizing, ai_player)` (tic_tac_toe.py lines
78-114).  The Python recursion terminates because each recursive call fills
one empty cell; here that metric is made explicit as a fuel parameter
(`minimaxAux fuel` agrees with the source whenever `fuel` exceeds the
number of empty cells, see `minimaxAux_congr`; the top-level wrapper
`minimax` passes fuel `10`, strictly above the empty count of any 3x3
board).  The source initialises `best_score` to `float('-inf')` /
`float('inf')`; since every score the recursion produces lies in
`{-1, 0, 1}` (see `minimaxAux_range`), the integer sentinels `-2` and `2`
are below / above every reachable score and fold to the same maximum /
minimum as the infinities do in Python.  The source mutates the shared
grid and undoes the mutation after each recursive call
(`board[i][j] = ...; score = minimax(...); board[i][j] = " "`); the pure
successor `setCell b c _` is that same exploration, and `minimaxState`
below re-plays the mutate-then-undo discipline literally and is proved to
restore the board and to compute this same score. -/
def minimaxAux : Nat → Board → Nat → Bool → Cell → Int
  | 0, _, _, _, _ => 0
  | fuel + 1, b, depth, is_maximizing, ai_player =>
    if check_winner b ai_player then 1
    else if check_winner b (other ai_player) then -1
    else if is_full b then 0
    else if is_maximizing then
      (get_valid_moves b).foldl
        (fun best_score c =>
          max (minimaxAux fuel (setCell b c ai_player) (depth + 1) false ai_player) best_score)
        (-2)
    else
      (get_valid_moves b).foldl
        (fun best_score c =>
          min (minimaxAux fuel (setCell b c (other ai_player)) (depth + 1) true ai_player) best_score)
        2

/-- The source's `minimax`: fuel 10 strictly dominates every empty count. -/
def minimax (b : Board) (depth : Nat) (is_maximizing : Bool) (ai_player : Cell) : Int :=
  minimaxAux 10 b depth is_maximizing ai_player

/-- The score `get_ai_move` computes for a candidate move `c`:
`board[i][j] = ai_player; score = minimax(board, 0, False, ai_player)`
(tic_tac_toe.py lines 133-134). -/
def moveScore (b : Board) (ai_player : Cell) (c : Fin 3 × Fin 3) : Int :=
  minimax (setCell b c ai_player) 0 false ai_player

/-- The selection loop of `get_ai_move` (tic_tac_toe.py lines 129-138):
`best_score = float('-inf'); best_move = None`, then for each candidate in
order, `if score > best_score: best_score, best_move = score, (i, j)`.
The accumulator `none` is the initial `(float('-inf'), None)` pair; the
first iteration always replaces it because every score exceeds `-inf`. -/
def pickBest {α : Type} (score : α → Int) (l : List α) : Option (Int × α) :=
  l.foldl
    (fun best c =>
      match best with
      | none => some (score c, c)
      | some (bs, bm) => if bs < score c then some (score c, c) else some (bs, bm))
    none

/-- Recursive restatement of the selection loop once the accumulator holds a
real pair; `pickBest` is rephrased through it in `pickBest_cons`. -/
def pickBestGo {α : Type} (score : α → Int) : Int × α → List α → Int × α
  | best, [] => best
  | best, c :: l =>
      if best.1 < score c then pickBestGo score (score c, c) l
      else pickBestGo score best l

/-- Specification-side selector: the first element (in list order) among
those attaining the maximum score — a later candidate displaces the
incumbent only when its score is strictly greater. -/
def bestMoveSpec {α : Type} (score : α → Int) : List α → Option α
  | [] => none
  | c :: l =>
      match bestMoveSpec score l with
      | none => some c
      | some d => if score c < score d then some d else some c

/-- `random.choice(seq)`: raises `IndexError` on an empty sequence
(modelled as `none`); on a nonempty sequence it returns one of its
elements, modelled here as the head.  In `get_ai_move` the nonempty case is
unreachable — whenever legal moves exist the loop has already produced a
`best_move` — so no behaviour of the program depends on which element a
real random choice would return (`C10_selectMove_no_randomness`). -/
def random_choice {α : Type} (l : List α) : Option α := l.head?

/-- `get_ai_move(board, ai_player)` (tic_tac_toe.py lines 116-140),
parametrised by the function standing in for `random.choice` in the final
`return best_move or random.choice(get_valid_moves(board))`: a `None`
`best_move` is falsy, so Python falls back to the random choice exactly
when the loop never ran.  (A chosen move such as `(0, 0)` is a nonempty
tuple, hence truthy.) -/
def get_ai_moveWith (choice : List (Fin 3 × Fin 3) → Option (Fin 3 × Fin 3))
    (b : Board) (ai_player : Cell) : Option (Fin 3 × Fin 3) :=
  match pickBest (moveScore b ai_player) (get_valid_moves b) with
  | some (_, best_move) => some best_move
  | none => choice (get_valid_moves b)

/-- `get_ai_move` as shipped, with the library's `random.choice`. -/
def get_ai_move (b : Board) (ai_player : Cell) : Option (Fin 3 × Fin 3) :=
  get_ai_moveWith random_choice b ai_player

/-! ## A fast mirror of the board for certificate checking

The bound certificates below (`checkLBM` / `checkUBM`) walk large parts of
the game tree inside the kernel, so they operate on a base-4 numeral image
of the board (`natOf`, digit `3*i+j` holding the code of cell `(i, j)`),
whose cell reads are constant-cost machine arithmetic.  Each operation on
the numeral image is proved to agree with the corresponding board
operation (`winM_eq`, `movesM_mem`, `natOf_setCell`, ...). -/

/-- The flat row-major image of a board. -/
def boardList (b : Board) : List Cell := allCells.map fun c => b c.1 c.2

/-- Numeric code of a cell mark: a base-4 digit. -/
def cellCode : Cell → Nat
  | Cell.empty => 0
  | Cell.X => 1
  | Cell.O => 2

/-- Base-4 numeral whose k-th digit is the code of the k-th list entry. -/
def natFromList : List Cell → Nat
  | [] => 0
  | c :: l => cellCode c + 4 * natFromList l

/-- The base-4 numeral image of a board (row-major digits). -/
def natOf (b : Board) : Nat := natFromList (boardList b)

/-- Digit `k` of a base-4 numeral. -/
def digit4 (n k : Nat) : Nat := n / 4 ^ k % 4

/-- Row-major index of a cell. -/
def cellIdx (c : Fin 3 × Fin 3) : Nat := 3 * c.1.val + c.2.val

/-- `check_winner` read off the numeral image; mirrors `check_winner`
expression for expression. -/
def winM (n : Nat) (p : Cell) : Bool :=
  ((List.finRange 3).any fun i =>
      ((List.finRange 3).all fun j => digit4 n (3 * i.val + j.val) = cellCode p) ||
      ((List.finRange 3).all fun j => digit4 n (3 * j.val + i.val) = cellCode p)) ||
  ((List.finRange 3).all fun i => digit4 n (3 * i.val + i.val) = cellCode p) ||
  ((List.finRange 3).all fun i => digit4 n (3 * i.val + (2 - i : Fin 3).val) = cellCode p)

/-- The nine cells reordered strongest-first (centre, corners, edges).
The bound certificates may examine moves in any order covering the same
set, and this order makes their existential branches cut off early. -/
def priorityCells : List (Fin 3 × Fin 3) :=
  [(1, 1), (0, 0), (0, 2), (2, 0), (2, 2), (0, 1), (1, 0), (1, 2), (2, 1)]

/-- The empty cells of the numeral image, enumerated strongest-first; same
membership as `get_valid_moves` of the underlying board (`movesM_mem`). -/
def movesM (n : Nat) : List (Fin 3 × Fin 3) :=
  priorityCells.filter fun c => digit4 n (cellIdx c) = 0

/-- Evaluation-order control: pass `n` to `f` after reducing it to a
numeral, so that deep recursion does not re-reduce a tower of pending
arithmetic at every read.  Provably the identity (`forceNat_eq`). -/
def forceNat {α : Type} (n : Nat) (f : Nat → α) : α :=
  match n with
  | 0 => f 0
  | k + 1 => f (k + 1)

/-- `checkLBM fuel n im ai bound = true` certifies
`bound ≤ minimaxAux fuel b d im ai` whenever `n = natOf b`
(see `checkLBM_sound`).  At a maximising node one sufficient branch is
enough, at a minimising node all branches must hold, so checking is far
cheaper than evaluating; it settles concrete minimax values without
enumerating the full game tree.  An empty move list plays the role of the
`is_full` test. -/
def checkLBM : Nat → Nat → Bool → Cell → Int → Bool
  | 0, _, _, _, bound => decide (bound ≤ 0)
  | fuel + 1, n, is_maximizing, ai_player, bound =>
    if winM n ai_player then decide (bound ≤ 1)
    else if winM n (other ai_player) then decide (bound ≤ -1)
    else
      match movesM n with
      | [] => decide (bound ≤ 0)
      | ms =>
        if is_maximizing then
          ms.any fun c =>
            forceNat (n + cellCode ai_player * 4 ^ cellIdx c) fun n2 =>
              checkLBM fuel n2 false ai_player bound
        else
          ms.all fun c =>
            forceNat (n + cellCode (other ai_player) * 4 ^ cellIdx c) fun n2 =>
              checkLBM fuel n2 true ai_player bound

/-- Dual certificate: `checkUBM fuel n im ai bound = true` certifies
`minimaxAux fuel b d im ai ≤ bound` whenever `n = natOf b`
(see `checkUBM_sound`). -/
def checkUBM : Nat → Nat → Bool → Cell → Int → Bool
  | 0, _, _, _, bound => decide ((0 : Int) ≤ bound)
  | fuel + 1, n, is_maximizing, ai_player, bound =>
    if winM n ai_player then decide ((1 : Int) ≤ bound)
    else if winM n (other ai_player) then decide ((-1 : Int) ≤ bound)
    else
      match movesM n with
      | [] => decide ((0 : Int) ≤ bound)
      | ms =>
        if is_maximizing then
          ms.all fun c =>
            forceNat (n + cellCode ai_player * 4 ^ cellIdx c) fun n2 =>
              checkUBM fuel n2 false ai_player bound
        else
          ms.any fun c =>
            forceNat (n + cellCode (other ai_player) * 4 ^ cellIdx c) fun n2 =>
              checkUBM fuel n2 true ai_player bound

/-! ## The source's mutate-then-undo search, with the board threaded
explicitly

`minimax` and `get_ai_move` in the source explore by mutating the caller's
grid in place and undoing each mutation (`board[i][j] = mark; ...;
board[i][j] = " "`).  `minimaxState` and `get_ai_moveState` are the same
code with that shared mutable grid made an explicit input and output, so
that "the caller's board is unchanged after the call" is a provable
statement (`C9` below) rather than an artefact of a pure embedding. -/

/-- `minimax` with the mutated grid threaded through: returns the score and
the grid as it is when the call returns. -/
def minimaxState : Nat → Board → Nat → Bool → Cell → Int × Board
  | 0, b, _, _, _ => (0, b)
  | fuel + 1, b, depth, is_maximizing, ai_player =>
    if check_winner b ai_player then (1, b)
    else if check_winner b (other ai_player) then (-1, b)
    else if is_full b then (0, b)
    else if is_maximizing then
      (get_valid_moves b).foldl
        (fun (acc : Int × Board) c =>
          let b1 := setCell acc.2 c ai_player
          let r := minimaxState fuel b1 (depth + 1) false ai_player
          let b3 := setCell r.2 c Cell.empty
          (max r.1 acc.1, b3))
        (-2, b)
    else
      (get_valid_moves b).foldl
        (fun (acc : Int × Board) c =>
          let b1 := setCell acc.2 c (other ai_player)
          let r := minimaxState fuel b1 (depth + 1) true ai_player
          let b3 := setCell r.2 c Cell.empty
          (min r.1 acc.1, b3))
        (2, b)

/-- `get_ai_move` with the mutated grid threaded through (tic_tac_toe.py
lines 129-140): each candidate is written to the grid, scored with the
stateful `minimax`, and erased again. -/
def get_ai_moveState (b : Board) (ai_player : Cell) :
    Option (Fin 3 × Fin 3) × Board :=
  let r :=
    (get_valid_moves b).foldl
      (fun (acc : Option (Int × (Fin 3 × Fin 3)) × Board) c =>
        let b1 := setCell acc.2 c ai_player
        let s := minimaxState 10 b1 0 false ai_player
        let b3 := setCell s.2 c Cell.empty
        let best :=
          match acc.1 with
          | none => some (s.1, c)
          | some (bs, bm) => if bs < s.1 then some (s.1, c) else some (bs, bm)
        (best, b3))
      (none, b)
  (match r.1 with
   | some (_, best_move) => some best_move
   | none => random_choice (get_valid_moves b), r.2)

/-! ## The self-played game (play_game with the engine on both sides)

`play_game` (tic_tac_toe.py lines 173-219) keeps `players = ["X", "O"]`
and a move counter `turn`; each iteration the mark `players[turn % 2]`
moves, the move is applied, and the loop stops as soon as the mover has
won or the board is full.  `selfPlayAux` is that loop with every move
chosen by `get_ai_move` for the mark to move (that mark being the
maximising player of its own search), as in the optimality property. -/

/-- How a round ends: a win for a mark, a tie, or `ongoing` when the fuel
runs out or a move could not be produced (neither happens in nine plies
from the empty board). -/
inductive Result where
  | won : Cell → Result
  | tie : Result
  | ongoing : Result
deriving DecidableEq, Repr

/-- The game loop of `play_game`, engine on both sides, returning the final
board and how the round ended. -/
def selfPlayAux : Nat → Board → Nat → Board × Result
  | 0, b, _ => (b, Result.ongoing)
  | fuel + 1, b, turn =>
    let player := if turn % 2 = 0 then Cell.X else Cell.O
    match get_ai_move b player with
    | none => (b, Result.ongoing)
    | some mv =>
      let b2 := setCell b mv player
      if check_winner b2 player then (b2, Result.won player)
      else if is_full b2 then (b2, Result.tie)
      else selfPlayAux fuel b2 (turn + 1)

/-- The whole engine-vs-engine round from the empty board (`X` moves
first, as in `play_game`). -/
def selfPlay : Board × Result := selfPlayAux 9 emptyBoard 0

/-- The boards of the engine-vs-engine round, ply by ply. -/
def gameB1 : Board := setCell emptyBoard (0, 0) Cell.X
def gameB2 : Board := setCell gameB1 (1, 1) Cell.O
def gameB3 : Board := setCell gameB2 (0, 1) Cell.X
def gameB4 : Board := setCell gameB3 (0, 2) Cell.O
def gameB5 : Board := setCell gameB4 (2, 0) Cell.X
def gameB6 : Board := setCell gameB5 (1, 0) Cell.O
def gameB7 : Board := setCell gameB6 (1, 2) Cell.X
def gameB8 : Board := setCell gameB7 (2, 1) Cell.O
def gameB9 : Board := setCell gameB8 (2, 2) Cell.X

/-- The eight winning lines as ordered coordinate triples: three rows,
three columns, two diagonals (the constant table of §4.1 of the spec). -/
def winLines : List ((Fin 3 × Fin 3) × (Fin 3 × Fin 3) × (Fin 3 × Fin 3)) :=
  [((0, 0), (0, 1), (0, 2)), ((1, 0), (1, 1), (1, 2)), ((2, 0), (2, 1), (2, 2)),
   ((0, 0), (1, 0), (2, 0)), ((0, 1), (1, 1), (2, 1)), ((0, 2), (1, 2), (2, 2)),
   ((0, 0), (1, 1), (2, 2)), ((0, 2), (1, 1), (2, 0))]

/-- Board with `X` at (0,0) and (1,1), `O` at (1,0) and (2,0), `X` to
move: `X` can win immediately at (2,2) (main diagonal), yet the earlier
cell (0,1) already carries a forced win. -/
def boardC4 : Board :=
  setCell (setCell (setCell (setCell emptyBoard
    (0, 0) Cell.X) (1, 1) Cell.X) (1, 0) Cell.O) (2, 0) Cell.O

/-- Board with `O` at (0,0), (0,1) and (1,0) (a double threat: row 0 open
at (0,2) and column 0 open at (2,0)), `X` at (1,1) and (2,2). -/
def boardC5 : Board :=
  setCell (setCell (setCell (setCell (setCell emptyBoard
    (0, 0) Cell.O) (0, 1) Cell.O) (1, 0) Cell.O) (1, 1) Cell.X) (2, 2) Cell.X

/-- Board with `O` at (0,0) and (0,1) (row 0 open at (0,2)), `X` at (1,1)
and (2,2): `X` has no immediate win and blocking at (0,2) does not lose. -/
def boardC5w : Board :=
  setCell (setCell (setCell (setCell emptyBoard
    (0, 0) Cell.O) (0, 1) Cell.O) (1, 1) Cell.X) (2, 2) Cell.X

/-- A full drawn board (top row X O X, middle O X X, bottom O X O). -/
def fullBoard : Board :=
  setCell (setCell (setCell (setCell (setCell (setCell (setCell (setCell (setCell
    emptyBoard
    (0, 0) Cell.X) (0, 1) Cell.O) (0, 2) Cell.X)
    (1, 0) Cell.O) (1, 1) Cell.X) (1, 2) Cell.X)
    (2, 0) Cell.O) (2, 1) Cell.X) (2, 2) Cell.O

/-! ## The GUI front-end's move handler

`TicTacToeGUI.make_move` (tic_tac_toe_gui.py lines 104-122).  The Tkinter
widgets (buttons, labels) and the `window.after(500, self.make_ai_move)`
call — which only schedules a later, separate GUI callback and changes no
game state inside `make_move` itself — are outside the game-state model;
what remains is the board, whose turn it is, which mark (if any) the
engine plays, and whether the round is over (`end_game` disables the
board). -/

structure GState where
  board : Board
  current_player : Cell
  ai_player : Option Cell
  game_over : Bool
deriving DecidableEq

/-- `self.current_player = "O" if self.current_player == "X" else "X"`
(tic_tac_toe_gui.py line 117). -/
def switchPlayer (p : Cell) : Cell := if p = Cell.X then Cell.O else Cell.X

/-- Python list indexing on a length-3 list: indices 0..2 hit directly,
-1..-3 wrap from the end (`lst[-1]` is the last element), anything else
raises `IndexError` (modelled `none`). -/
def pyIndex (i : Int) : Option (Fin 3) :=
  if h : 0 ≤ i ∧ i < 3 then some ⟨i.toNat, by omega⟩
  else if h2 : -3 ≤ i ∧ i < 0 then some ⟨(i + 3).toNat, by omega⟩
  else none

/-- `make_move(self, row, col)` (tic_tac_toe_gui.py lines 104-122).
`self.board[row][col]` is read with Python indexing semantics, so an
`IndexError` (modelled `none`) propagates before anything changes; an
in-range occupied cell fails the `if` guard, which has no else branch, so
the handler returns with the state untouched. -/
def make_move (g : GState) (row col : Int) : Option GState :=
  match pyIndex row, pyIndex col with
  | some r, some c =>
    if g.board r c = Cell.empty then
      let b2 := setCell g.board (r, c) g.current_player
      if check_winner b2 g.current_player then
        some { g with board := b2, game_over := true }
      else if is_full b2 then
        some { g with board := b2, game_over := true }
      else
        some { g with board := b2, current_player := switchPlayer g.current_player }
    else some g
  | _, _ => none

/-- A mid-game GUI state: `X` already holds (0,0), `X` to move. -/
def gStateC7 : GState :=
  { board := setCell emptyBoard (0, 0) Cell.X
    current_player := Cell.X
    ai_player := none
    game_over := false }

/-- A fresh GUI state on the empty board, `X` to move. -/
def gStateC8 : GState :=
  { board := emptyBoard
    current_player := Cell.X
    ai_player := some Cell.O
    game_over := false }

/-! ## Basic facts about the board operations -/

theorem mem_allCells : ∀ c : Fin 3 × Fin 3, c ∈ allCells := by decide

theorem allCells_nodup : allCells.Nodup := by decide

theorem mem_get_valid_moves {b : Board} {c : Fin 3 × Fin 3} :
    c ∈ get_valid_moves b ↔ b c.1 c.2 = Cell.empty := by
  unfold get_valid_moves
  simp [List.mem_filter, mem_allCells]

theorem get_valid_moves_nodup (b : Board) : (get_valid_moves b).Nodup :=
  allCells_nodup.filter _

theorem is_full_iff (b : Board) : is_full b = true ↔ ∀ i j : Fin 3, ¬ b i j = Cell.empty := by
  unfold is_full
  simp [List.all_eq_true]

theorem get_valid_moves_nil_iff (b : Board) :
    get_valid_moves b = [] ↔ is_full b = true := by
  rw [is_full_iff, List.eq_nil_iff_forall_not_mem]
  constructor
  · intro h i j hij
    exact h (i, j) (mem_get_valid_moves.mpr hij)
  · intro h c hc
    exact h c.1 c.2 (mem_get_valid_moves.mp hc)

/-! ## Bounds on left folds with `max` / `min` -/

theorem le_foldl_max {α : Type} (f : α → Int) :
    ∀ (l : List α) (s : Int), s ≤ l.foldl (fun a c => max (f c) a) s
  | [], s => le_refl s
  | c :: l, s => le_trans (le_max_right _ _) (le_foldl_max f l (max (f c) s))

theorem foldl_max_of_mem {α : Type} (f : α → Int) :
    ∀ (l : List α) (s : Int) (c : α), c ∈ l →
      f c ≤ l.foldl (fun a c => max (f c) a) s := by
  intro l
  induction l with
  | nil => intro s c hc; cases hc
  | cons a t ih =>
    intro s c hc
    rcases List.mem_cons.mp hc with h | h
    · subst h
      exact le_trans (le_max_left _ _) (le_foldl_max f t _)
    · exact ih _ c h

theorem foldl_max_cases {α : Type} (f : α → Int) :
    ∀ (l : List α) (s : Int),
      l.foldl (fun a c => max (f c) a) s = s ∨
      ∃ c ∈ l, l.foldl (fun a c => max (f c) a) s = f c := by
  intro l
  induction l with
  | nil => intro s; exact Or.inl rfl
  | cons a t ih =>
    intro s
    rcases ih (max (f a) s) with h | ⟨c, hc, h⟩
    · rcases max_choice (f a) s with hm | hm
      · exact Or.inr ⟨a, List.mem_cons_self a t, by rw [List.foldl_cons, h, hm]⟩
      · exact Or.inl (by rw [List.foldl_cons, h, hm])
    · exact Or.inr ⟨c, List.mem_cons_of_mem a hc, by rw [List.foldl_cons, h]⟩

theorem foldl_min_le {α : Type} (f : α → Int) :
    ∀ (l : List α) (s : Int), l.foldl (fun a c => min (f c) a) s ≤ s
  | [], s => le_refl s
  | c :: l, s => le_trans (foldl_min_le f l (min (f c) s)) (min_le_right _ _)

theorem foldl_min_of_mem {α : Type} (f : α → Int) :
    ∀ (l : List α) (s : Int) (c : α), c ∈ l →
      l.foldl (fun a c => min (f c) a) s ≤ f c := by
  intro l
  induction l with
  | nil => intro s c hc; cases hc
  | cons a t ih =>
    intro s c hc
    rcases List.mem_cons.mp hc with h | h
    · subst h
      exact le_trans (foldl_min_le f t _) (min_le_left _ _)
    · exact ih _ c h

theorem foldl_min_cases {α : Type} (f : α → Int) :
    ∀ (l : List α) (s : Int),
      l.foldl (fun a c => min (f c) a) s = s ∨
      ∃ c ∈ l, l.foldl (fun a c => min (f c) a) s = f c := by
  intro l
  induction l with
  | nil => intro s; exact Or.inl rfl
  | cons a t ih =>
    intro s
    rcases ih (min (f a) s) with h | ⟨c, hc, h⟩
    · rcases min_choice (f a) s with hm | hm
      · exact Or.inr ⟨a, List.mem_cons_self a t, by rw [List.foldl_cons, h, hm]⟩
      · exact Or.inl (by rw [List.foldl_cons, h, hm])
    · exact Or.inr ⟨c, List.mem_cons_of_mem a hc, by rw [List.foldl_cons, h]⟩

/-! ## The score range -/

theorem minimaxAux_range :
    ∀ (f : Nat) (b : Board) (d : Nat) (im : Bool) (ai : Cell),
      -1 ≤ minimaxAux f b d im ai ∧ minimaxAux f b d im ai ≤ 1 := by
  intro f
  induction f with
  | zero =>
    intro b d im ai
    constructor <;> norm_num [minimaxAux]
  | succ g ih =>
    intro b d im ai
    by_cases h1 : check_winner b ai
    · constructor <;> simp [minimaxAux, h1]
    by_cases h2 : check_winner b (other ai)
    · constructor <;> simp [minimaxAux, h1, h2]
    by_cases h3 : is_full b
    · constructor <;> simp [minimaxAux, h1, h2, h3]
    have hne : get_valid_moves b ≠ [] := by
      intro h
      exact h3 ((get_valid_moves_nil_iff b).mp h)
    obtain ⟨c0, hc0⟩ := List.exists_mem_of_ne_nil _ hne
    cases im with
    | true =>
      have hval : minimaxAux (g + 1) b d true ai =
          (get_valid_moves b).foldl
            (fun best_score c =>
              max (minimaxAux g (setCell b c ai) (d + 1) false ai) best_score) (-2) := by
        simp [minimaxAux, h1, h2, h3]
      constructor
      · rw [hval]
        exact le_trans (ih (setCell b c0 ai) (d + 1) false ai).1
          (foldl_max_of_mem _ _ _ _ hc0)
      · rw [hval]
        rcases foldl_max_cases
            (fun c => minimaxAux g (setCell b c ai) (d + 1) false ai)
            (get_valid_moves b) (-2) with h | ⟨c, _, h⟩
        · rw [h]; norm_num
        · rw [h]; exact (ih (setCell b c ai) (d + 1) false ai).2
    | false =>
      have hval : minimaxAux (g + 1) b d false ai =
          (get_valid_moves b).foldl
            (fun best_score c =>
              min (minimaxAux g (setCell b c (other ai)) (d + 1) true ai) best_score) 2 := by
        simp [minimaxAux, h1, h2, h3]
      constructor
      · rw [hval]
        rcases foldl_min_cases
            (fun c => minimaxAux g (setCell b c (other ai)) (d + 1) true ai)
            (get_valid_moves b) 2 with h | ⟨c, _, h⟩
        · rw [h]; norm_num
        · rw [h]; exact (ih (setCell b c (other ai)) (d + 1) true ai).1
      · rw [hval]
        exact le_trans (foldl_min_of_mem _ _ _ _ hc0)
          (ih (setCell b c0 (other ai)) (d + 1) true ai).2

theorem minimax_range (b : Board) (d : Nat) (im : Bool) (ai : Cell) :
    -1 ≤ minimax b d im ai ∧ minimax b d im ai ≤ 1 :=
  minimaxAux_range 10 b d im ai

theorem moveScore_range (b : Board) (ai : Cell) (c : Fin 3 × Fin 3) :
    -1 ≤ moveScore b ai c ∧ moveScore b ai c ≤ 1 :=
  minimax_range _ _ _ _

/-! ## Fuel irrelevance: the fuelled recursion computes the source's value -/

theorem other_ne_empty (p : Cell) : other p ≠ Cell.empty := by
  unfold other
  split <;> simp

theorem get_valid_moves_setCell (b : Board) (c : Fin 3 × Fin 3) (v : Cell)
    (hv : v ≠ Cell.empty) :
    get_valid_moves (setCell b c v) = (get_valid_moves b).filter (fun x => x ≠ c) := by
  unfold get_valid_moves
  rw [List.filter_filter]
  apply List.filter_congr
  intro x _
  by_cases hxc : x = c
  · subst hxc
    simp [setCell, hv]
  · have : ¬(x.1 = c.1 ∧ x.2 = c.2) := by
      intro hand
      exact hxc (Prod.ext hand.1 hand.2)
    simp [setCell, this, hxc]

theorem length_filter_ne {α : Type} [DecidableEq α] :
    ∀ (l : List α) (c : α), l.Nodup → c ∈ l →
      ((l.filter fun x => x ≠ c).length) + 1 = l.length := by
  intro l
  induction l with
  | nil => intro c _ hc; cases hc
  | cons a t ih =>
    intro c hnd hc
    rcases List.nodup_cons.mp hnd with ⟨hat, hndt⟩
    by_cases hac : a = c
    · subst hac
      have hfil : t.filter (fun x => x ≠ a) = t := by
        apply List.filter_eq_self.mpr
        intro x hx
        simp only [decide_eq_true_eq]
        intro hxa
        exact hat (hxa ▸ hx)
      rw [List.filter_cons, if_neg (by simp), hfil, List.length_cons]
    · have hct : c ∈ t := by
        rcases List.mem_cons.mp hc with h | h
        · exact absurd h.symm hac
        · exact h
      have := ih c hndt hct
      simp only [List.filter_cons, decide_eq_true_eq]
      rw [if_pos hac]
      simp only [List.length_cons]
      omega

theorem emptyCount_le_nine (b : Board) : emptyCount b ≤ 9 := by
  have h := List.length_filter_le (fun c => decide (b c.1 c.2 = Cell.empty)) allCells
  have h9 : allCells.length = 9 := rfl
  unfold emptyCount get_valid_moves
  omega

theorem emptyCount_setCell (b : Board) (c : Fin 3 × Fin 3) (v : Cell)
    (hv : v ≠ Cell.empty) (hc : c ∈ get_valid_moves b) :
    emptyCount (setCell b c v) + 1 = emptyCount b := by
  unfold emptyCount
  rw [get_valid_moves_setCell b c v hv]
  exact length_filter_ne _ c (get_valid_moves_nodup b) hc

theorem minimaxAux_congr :
    ∀ (f1 f2 : Nat) (b : Board) (d1 d2 : Nat) (im : Bool) (ai : Cell),
      ai ≠ Cell.empty → emptyCount b < f1 → emptyCount b < f2 →
      minimaxAux f1 b d1 im ai = minimaxAux f2 b d2 im ai := by
  intro f1
  induction f1 with
  | zero =>
    intro f2 b d1 d2 im ai _ h1 _
    exact absurd h1 (Nat.not_lt_zero _)
  | succ g1 ih =>
    intro f2 b d1 d2 im ai hai h1 h2
    obtain ⟨g2, rfl⟩ : ∃ g2, f2 = g2 + 1 := ⟨f2 - 1, by omega⟩
    by_cases hw1 : check_winner b ai
    · simp [minimaxAux, hw1]
    by_cases hw2 : check_winner b (other ai)
    · simp [minimaxAux, hw1, hw2]
    by_cases hf : is_full b
    · simp [minimaxAux, hw1, hw2, hf]
    have key : ∀ (v : Cell), v ≠ Cell.empty → ∀ c ∈ get_valid_moves b, ∀ (im2 : Bool),
        minimaxAux g1 (setCell b c v) (d1 + 1) im2 ai =
        minimaxAux g2 (setCell b c v) (d2 + 1) im2 ai := by
      intro v hv c hcmem im2
      have hcount := emptyCount_setCell b c v hv hcmem
      exact ih g2 _ _ _ _ _ hai (by omega) (by omega)
    cases im with
    | true =>
      have e1 : minimaxAux (g1 + 1) b d1 true ai =
          (get_valid_moves b).foldl
            (fun a c => max (minimaxAux g1 (setCell b c ai) (d1 + 1) false ai) a) (-2) := by
        simp [minimaxAux, hw1, hw2, hf]
      have e2 : minimaxAux (g2 + 1) b d2 true ai =
          (get_valid_moves b).foldl
            (fun a c => max (minimaxAux g2 (setCell b c ai) (d2 + 1) false ai) a) (-2) := by
        simp [minimaxAux, hw1, hw2, hf]
      rw [e1, e2]
      apply List.foldl_ext
      intro a c hc
      rw [key ai hai c hc false]
    | false =>
      have e1 : minimaxAux (g1 + 1) b d1 false ai =
          (get_valid_moves b).foldl
            (fun a c => min (minimaxAux g1 (setCell b c (other ai)) (d1 + 1) true ai) a) 2 := by
        simp [minimaxAux, hw1, hw2, hf]
      have e2 : minimaxAux (g2 + 1) b d2 false ai =
          (get_valid_moves b).foldl
            (fun a c => min (minimaxAux g2 (setCell b c (other ai)) (d2 + 1) true ai) a) 2 := by
        simp [minimaxAux, hw1, hw2, hf]
      rw [e1, e2]
      apply List.foldl_ext
      intro a c hc
      rw [key (other ai) (other_ne_empty ai) c hc true]

/-! ## The numeral image agrees with the board operations -/

theorem cellCode_lt (x : Cell) : cellCode x < 4 := by
  cases x <;> simp [cellCode]

theorem cellCode_inj {x y : Cell} : cellCode x = cellCode y ↔ x = y := by
  cases x <;> cases y <;> simp [cellCode]

theorem cellCode_eq_zero {x : Cell} : cellCode x = 0 ↔ x = Cell.empty := by
  cases x <;> simp [cellCode]

theorem forceNat_eq {α : Type} (n : Nat) (f : Nat → α) : forceNat n f = f n := by
  cases n <;> rfl

theorem digit4_base (a r : Nat) (ha : a < 4) : digit4 (a + 4 * r) 0 = a := by
  unfold digit4
  rw [pow_zero, Nat.div_one]
  omega

theorem digit4_step (a r k : Nat) (ha : a < 4) :
    digit4 (a + 4 * r) (k + 1) = digit4 r k := by
  unfold digit4
  rw [pow_succ, Nat.mul_comm (4 ^ k) 4, ← Nat.div_div_eq_div_mul,
    Nat.add_mul_div_left a r (by norm_num : 0 < 4), Nat.div_eq_of_lt ha, Nat.zero_add]

theorem digit4_natFromList :
    ∀ (l : List Cell) (k : Nat), k < l.length →
      digit4 (natFromList l) k = cellCode (l.getD k Cell.empty) := by
  intro l
  induction l with
  | nil => intro k hk; simp at hk
  | cons c t ih =>
    intro k hk
    cases k with
    | zero =>
      rw [natFromList, digit4_base _ _ (cellCode_lt c)]
      rfl
    | succ k2 =>
      rw [natFromList, digit4_step _ _ _ (cellCode_lt c), ih k2 (by simpa using hk)]
      rfl

theorem boardList_getD (b : Board) (i j : Fin 3) :
    (boardList b).getD (3 * i.val + j.val) Cell.empty = b i j := by
  fin_cases i <;> fin_cases j <;> rfl

theorem digit4_natOf (b : Board) (i j : Fin 3) :
    digit4 (natOf b) (3 * i.val + j.val) = cellCode (b i j) := by
  have hi := i.isLt
  have hj := j.isLt
  have hlen : 3 * i.val + j.val < (boardList b).length := by
    have h9 : (boardList b).length = 9 := rfl
    omega
  rw [natOf, digit4_natFromList _ _ hlen, boardList_getD]

theorem winM_eq (b : Board) (p : Cell) : winM (natOf b) p = check_winner b p := by
  have h : ∀ i j : Fin 3,
      (decide (digit4 (natOf b) (3 * i.val + j.val) = cellCode p) : Bool) =
      decide (b i j = p) := by
    intro i j
    rw [digit4_natOf]
    exact decide_eq_decide.mpr cellCode_inj
  unfold winM check_winner
  simp only [h]

theorem mem_priorityCells : ∀ c : Fin 3 × Fin 3, c ∈ priorityCells := by decide

theorem mem_movesM (b : Board) (c : Fin 3 × Fin 3) :
    c ∈ movesM (natOf b) ↔ c ∈ get_valid_moves b := by
  unfold movesM
  rw [List.mem_filter, mem_get_valid_moves]
  have hd : digit4 (natOf b) (cellIdx c) = cellCode (b c.1 c.2) := digit4_natOf b c.1 c.2
  simp [mem_priorityCells c, hd, cellCode_eq_zero]

theorem movesM_nil_iff (b : Board) : movesM (natOf b) = [] ↔ is_full b = true := by
  rw [← get_valid_moves_nil_iff, List.eq_nil_iff_forall_not_mem,
    List.eq_nil_iff_forall_not_mem]
  constructor
  · intro h c hc
    exact h c ((mem_movesM b c).mpr hc)
  · intro h c hc
    exact h c ((mem_movesM b c).mp hc)

theorem natFromList_set (v : Cell) :
    ∀ (l : List Cell) (k : Nat), k < l.length → l.getD k Cell.empty = Cell.empty →
      natFromList (l.set k v) = natFromList l + cellCode v * 4 ^ k := by
  intro l
  induction l with
  | nil => intro k hlen _; simp at hlen
  | cons c t ih =>
    intro k hlen hk
    cases k with
    | zero =>
      have hc0 : cellCode c = 0 := by
        rw [cellCode_eq_zero]
        simpa using hk
      simp only [List.set_cons_zero, natFromList, hc0, pow_zero]
      ring
    | succ k2 =>
      have hk2 : t.getD k2 Cell.empty = Cell.empty := by simpa using hk
      have hlen2 : k2 < t.length := by simpa using hlen
      simp only [List.set_cons_succ, natFromList, ih k2 hlen2 hk2, pow_succ]
      ring

theorem boardList_setCell (b : Board) (c : Fin 3 × Fin 3) (v : Cell) :
    boardList (setCell b c v) = (boardList b).set (cellIdx c) v := by
  rcases c with ⟨i, j⟩
  fin_cases i <;> fin_cases j <;> rfl

theorem natOf_setCell (b : Board) (c : Fin 3 × Fin 3) (v : Cell)
    (hc : b c.1 c.2 = Cell.empty) :
    natOf (setCell b c v) = natOf b + cellCode v * 4 ^ cellIdx c := by
  have hlen : cellIdx c < (boardList b).length := by
    have h1 := c.1.isLt
    have h2 := c.2.isLt
    have h9 : (boardList b).length = 9 := rfl
    unfold cellIdx
    omega
  have hget : (boardList b).getD (cellIdx c) Cell.empty = Cell.empty := by
    rw [show cellIdx c = 3 * c.1.val + c.2.val from rfl, boardList_getD]
    exact hc
  rw [natOf, natOf, boardList_setCell, natFromList_set v _ _ hlen hget]

/-! ## Soundness of the bound certificates -/

theorem checkLBM_sound :
    ∀ (f : Nat) (b : Board) (d : Nat) (im : Bool) (ai : Cell) (β : Int),
      checkLBM f (natOf b) im ai β = true → β ≤ minimaxAux f b d im ai := by
  intro f
  induction f with
  | zero =>
    intro b d im ai β h
    simp only [checkLBM, decide_eq_true_eq] at h
    simpa [minimaxAux] using h
  | succ g ih =>
    intro b d im ai β h
    by_cases hw1 : check_winner b ai
    · have h1 : winM (natOf b) ai = true := by rw [winM_eq]; exact hw1
      simp only [checkLBM, h1, if_true, decide_eq_true_eq] at h
      have hval : minimaxAux (g + 1) b d im ai = 1 := by simp [minimaxAux, hw1]
      rw [hval]; exact h
    have h1 : winM (natOf b) ai = false := by rw [winM_eq]; simpa using hw1
    by_cases hw2 : check_winner b (other ai)
    · have h2 : winM (natOf b) (other ai) = true := by rw [winM_eq]; exact hw2
      simp only [checkLBM, h1, h2, Bool.false_eq_true, if_false, if_true,
        decide_eq_true_eq] at h
      have hval : minimaxAux (g + 1) b d im ai = -1 := by simp [minimaxAux, hw1, hw2]
      rw [hval]; exact h
    have h2 : winM (natOf b) (other ai) = false := by rw [winM_eq]; simpa using hw2
    cases hms : movesM (natOf b) with
    | nil =>
      have hfull : is_full b = true := (movesM_nil_iff b).mp hms
      simp only [checkLBM, h1, h2, hms, Bool.false_eq_true, if_false,
        decide_eq_true_eq] at h
      have hval : minimaxAux (g + 1) b d im ai = 0 := by
        simp [minimaxAux, hw1, hw2, hfull]
      rw [hval]; exact h
    | cons m ms2 =>
      have hfull : is_full b = false := by
        by_contra hf
        have hf2 : is_full b = true := by simpa using hf
        rw [(movesM_nil_iff b).mpr hf2] at hms
        cases hms
      simp only [checkLBM, h1, h2, hms, Bool.false_eq_true, if_false] at h
      cases im with
      | true =>
        simp only [if_true, List.any_eq_true, forceNat_eq] at h
        obtain ⟨c, hcl, hc⟩ := h
        have hcm : c ∈ movesM (natOf b) := by rw [hms]; exact hcl
        have hcv : c ∈ get_valid_moves b := (mem_movesM b c).mp hcm
        have hce : b c.1 c.2 = Cell.empty := mem_get_valid_moves.mp hcv
        rw [← natOf_setCell b c ai hce] at hc
        have hrec := ih (setCell b c ai) (d + 1) false ai β hc
        have hval : minimaxAux (g + 1) b d true ai =
            (get_valid_moves b).foldl
              (fun a c => max (minimaxAux g (setCell b c ai) (d + 1) false ai) a) (-2) := by
          simp [minimaxAux, hw1, hw2, hfull]
        rw [hval]
        exact le_trans hrec (foldl_max_of_mem _ _ _ _ hcv)
      | false =>
        simp only [Bool.false_eq_true, if_false, List.all_eq_true, forceNat_eq] at h
        have hall : ∀ c ∈ get_valid_moves b,
            β ≤ minimaxAux g (setCell b c (other ai)) (d + 1) true ai := by
          intro c hcv
          have hcm : c ∈ movesM (natOf b) := (mem_movesM b c).mpr hcv
          rw [hms] at hcm
          have hc := h c hcm
          have hce : b c.1 c.2 = Cell.empty := mem_get_valid_moves.mp hcv
          rw [← natOf_setCell b c (other ai) hce] at hc
          exact ih (setCell b c (other ai)) (d + 1) true ai β hc
        have hval : minimaxAux (g + 1) b d false ai =
            (get_valid_moves b).foldl
              (fun a c => min (minimaxAux g (setCell b c (other ai)) (d + 1) true ai) a) 2 := by
          simp [minimaxAux, hw1, hw2, hfull]
        rw [hval]
        have hmv : m ∈ get_valid_moves b := by
          apply (mem_movesM b m).mp
          rw [hms]
          exact List.mem_cons_self m ms2
        rcases foldl_min_cases
            (fun c => minimaxAux g (setCell b c (other ai)) (d + 1) true ai)
            (get_valid_moves b) 2 with hcase | ⟨c, hcv, hcase⟩
        · rw [hcase]
          have := hall m hmv
          have := (minimaxAux_range g (setCell b m (other ai)) (d + 1) true ai).2
          omega
        · rw [hcase]
          exact hall c hcv

theorem checkUBM_sound :
    ∀ (f : Nat) (b : Board) (d : Nat) (im : Bool) (ai : Cell) (β : Int),
      checkUBM f (natOf b) im ai β = true → minimaxAux f b d im ai ≤ β := by
  intro f
  induction f with
  | zero =>
    intro b d im ai β h
    simp only [checkUBM, decide_eq_true_eq] at h
    simpa [minimaxAux] using h
  | succ g ih =>
    intro b d im ai β h
    by_cases hw1 : check_winner b ai
    · have h1 : winM (natOf b) ai = true := by rw [winM_eq]; exact hw1
      simp only [checkUBM, h1, if_true, decide_eq_true_eq] at h
      have hval : minimaxAux (g + 1) b d im ai = 1 := by simp [minimaxAux, hw1]
      rw [hval]; exact h
    have h1 : winM (natOf b) ai = false := by rw [winM_eq]; simpa using hw1
    by_cases hw2 : check_winner b (other ai)
    · have h2 : winM (natOf b) (other ai) = true := by rw [winM_eq]; exact hw2
      simp only [checkUBM, h1, h2, Bool.false_eq_true, if_false, if_true,
        decide_eq_true_eq] at h
      have hval : minimaxAux (g + 1) b d im ai = -1 := by simp [minimaxAux, hw1, hw2]
      rw [hval]; exact h
    have h2 : winM (natOf b) (other ai) = false := by rw [winM_eq]; simpa using hw2
    cases hms : movesM (natOf b) with
    | nil =>
      have hfull : is_full b = true := (movesM_nil_iff b).mp hms
      simp only [checkUBM, h1, h2, hms, Bool.false_eq_true, if_false,
        decide_eq_true_eq] at h
      have hval : minimaxAux (g + 1) b d im ai = 0 := by
        simp [minimaxAux, hw1, hw2, hfull]
      rw [hval]; exact h
    | cons m ms2 =>
      have hfull : is_full b = false := by
        by_contra hf
        have hf2 : is_full b = true := by simpa using hf
        rw [(movesM_nil_iff b).mpr hf2] at hms
        cases hms
      simp only [checkUBM, h1, h2, hms, Bool.false_eq_true, if_false] at h
      cases im with
      | true =>
        simp only [if_true, List.all_eq_true, forceNat_eq] at h
        have hall : ∀ c ∈ get_valid_moves b,
            minimaxAux g (setCell b c ai) (d + 1) false ai ≤ β := by
          intro c hcv
          have hcm : c ∈ movesM (natOf b) := (mem_movesM b c).mpr hcv
          rw [hms] at hcm
          have hc := h c hcm
          have hce : b c.1 c.2 = Cell.empty := mem_get_valid_moves.mp hcv
          rw [← natOf_setCell b c ai hce] at hc
          exact ih (setCell b c ai) (d + 1) false ai β hc
        have hval : minimaxAux (g + 1) b d true ai =
            (get_valid_moves b).foldl
              (fun a c => max (minimaxAux g (setCell b c ai) (d + 1) false ai) a) (-2) := by
          simp [minimaxAux, hw1, hw2, hfull]
        rw [hval]
        have hmv : m ∈ get_valid_moves b := by
          apply (mem_movesM b m).mp
          rw [hms]
          exact List.mem_cons_self m ms2
        rcases foldl_max_cases
            (fun c => minimaxAux g (setCell b c ai) (d + 1) false ai)
            (get_valid_moves b) (-2) with hcase | ⟨c, hcv, hcase⟩
        · rw [hcase]
          have := hall m hmv
          have := (minimaxAux_range g (setCell b m ai) (d + 1) false ai).1
          omega
        · rw [hcase]
          exact hall c hcv
      | false =>
        simp only [Bool.false_eq_true, if_false, List.any_eq_true, forceNat_eq] at h
        obtain ⟨c, hcl, hc⟩ := h
        have hcm : c ∈ movesM (natOf b) := by rw [hms]; exact hcl
        have hcv : c ∈ get_valid_moves b := (mem_movesM b c).mp hcm
        have hce : b c.1 c.2 = Cell.empty := mem_get_valid_moves.mp hcv
        rw [← natOf_setCell b c (other ai) hce] at hc
        have hrec := ih (setCell b c (other ai)) (d + 1) true ai β hc
        have hval : minimaxAux (g + 1) b d false ai =
            (get_valid_moves b).foldl
              (fun a c => min (minimaxAux g (setCell b c (other ai)) (d + 1) true ai) a) 2 := by
          simp [minimaxAux, hw1, hw2, hfull]
        rw [hval]
        exact le_trans (foldl_min_of_mem _ _ _ _ hcv) hrec

/-- Settle a lower bound on a concrete `minimax` value by certificate. -/
theorem le_minimax_of (b : Board) (d : Nat) (im : Bool) (ai : Cell) (β : Int)
    (h : checkLBM 10 (natOf b) im ai β = true) : β ≤ minimax b d im ai :=
  checkLBM_sound 10 b d im ai β h

/-- Settle an upper bound on a concrete `minimax` value by certificate. -/
theorem minimax_le_of (b : Board) (d : Nat) (im : Bool) (ai : Cell) (β : Int)
    (h : checkUBM 10 (natOf b) im ai β = true) : minimax b d im ai ≤ β :=
  checkUBM_sound 10 b d im ai β h

/-- Settle an upper bound on a candidate move's score by certificate. -/
theorem moveScore_le_of (b : Board) (ai : Cell) (c : Fin 3 × Fin 3) (β : Int)
    (h : checkUBM 10 (natOf (setCell b c ai)) false ai β = true) :
    moveScore b ai c ≤ β :=
  checkUBM_sound 10 (setCell b c ai) 0 false ai β h

/-- Settle a lower bound on a candidate move's score by certificate. -/
theorem le_moveScore_of (b : Board) (ai : Cell) (c : Fin 3 × Fin 3) (β : Int)
    (h : checkLBM 10 (natOf (setCell b c ai)) false ai β = true) :
    β ≤ moveScore b ai c :=
  checkLBM_sound 10 (setCell b c ai) 0 false ai β h

/-! ## The selection loop returns the first move attaining the maximum -/

theorem pickBest_go_eq {α : Type} (score : α → Int) :
    ∀ (l : List α) (best : Int × α),
      l.foldl
        (fun acc c =>
          match acc with
          | none => some (score c, c)
          | some (bs, bm) => if bs < score c then some (score c, c) else some (bs, bm))
        (some best) = some (pickBestGo score best l) := by
  intro l
  induction l with
  | nil => intro best; rfl
  | cons c t ih =>
    intro best
    rcases best with ⟨bs, bm⟩
    by_cases h : bs < score c
    · simp only [List.foldl_cons, pickBestGo, h, if_true]
      exact ih (score c, c)
    · simp only [List.foldl_cons, pickBestGo, h, if_false]
      exact ih (bs, bm)

theorem pickBest_cons {α : Type} (score : α → Int) (c : α) (l : List α) :
    pickBest score (c :: l) = some (pickBestGo score (score c, c) l) := by
  unfold pickBest
  rw [List.foldl_cons]
  exact pickBest_go_eq score l (score c, c)

theorem pickBestGo_snd {α : Type} (score : α → Int) :
    ∀ (l : List α) (best : Int × α),
      (pickBestGo score best l).2 =
        (match bestMoveSpec score l with
         | none => best.2
         | some d => if best.1 < score d then d else best.2) := by
  intro l
  induction l with
  | nil => intro best; rfl
  | cons c t ih =>
    intro best
    rcases best with ⟨bs, bm⟩
    by_cases h : bs < score c
    · rw [show pickBestGo score (bs, bm) (c :: t) = pickBestGo score (score c, c) t from
        by simp [pickBestGo, h]]
      rw [ih (score c, c)]
      cases hspec : bestMoveSpec score t with
      | none => simp [bestMoveSpec, hspec, h]
      | some d =>
        by_cases h2 : score c < score d
        · simp only [bestMoveSpec, hspec, h2, if_true]
          rw [if_pos (lt_trans h h2)]
        · simp only [bestMoveSpec, hspec, h2, if_false]
          rw [if_pos h]
    · rw [show pickBestGo score (bs, bm) (c :: t) = pickBestGo score (bs, bm) t from
        by simp [pickBestGo, h]]
      rw [ih (bs, bm)]
      cases hspec : bestMoveSpec score t with
      | none => simp [bestMoveSpec, hspec, h]
      | some d =>
        by_cases h2 : score c < score d
        · simp only [bestMoveSpec, hspec, h2, if_true]
        · simp only [bestMoveSpec, hspec, h2, if_false]
          rw [if_neg h, if_neg (by omega)]

theorem pickBest_snd {α : Type} (score : α → Int) :
    ∀ l : List α, (pickBest score l).map (fun x => x.2) = bestMoveSpec score l := by
  intro l
  cases l with
  | nil => rfl
  | cons c t =>
    rw [pickBest_cons, Option.map_some', pickBestGo_snd]
    cases hspec : bestMoveSpec score t with
    | none => simp [bestMoveSpec, hspec]
    | some d =>
      simp only [bestMoveSpec, hspec]
      by_cases h2 : score c < score d
      · rw [if_pos h2, if_pos h2]
      · rw [if_neg h2, if_neg h2]

theorem bestMoveSpec_none_iff {α : Type} (score : α → Int) :
    ∀ l : List α, bestMoveSpec score l = none ↔ l = [] := by
  intro l
  cases l with
  | nil => simp [bestMoveSpec]
  | cons c t =>
    simp only [bestMoveSpec]
    cases hspec : bestMoveSpec score t with
    | none => simp
    | some d =>
      constructor
      · intro h
        by_cases h2 : score c < score d <;> simp [h2] at h
      · intro h
        cases h

theorem bestMoveSpec_mem {α : Type} (score : α → Int) :
    ∀ (l : List α) (m : α), bestMoveSpec score l = some m → m ∈ l := by
  intro l
  induction l with
  | nil => intro m h; cases h
  | cons c t ih =>
    intro m h
    cases hspec : bestMoveSpec score t with
    | none =>
      simp only [bestMoveSpec, hspec, Option.some.injEq] at h
      exact h ▸ List.mem_cons_self c t
    | some d =>
      simp only [bestMoveSpec, hspec] at h
      by_cases h2 : score c < score d
      · rw [if_pos h2] at h
        simp only [Option.some.injEq] at h
        exact h ▸ List.mem_cons_of_mem c (ih d hspec)
      · rw [if_neg h2] at h
        simp only [Option.some.injEq] at h
        exact h ▸ List.mem_cons_self c t

theorem bestMoveSpec_max {α : Type} (score : α → Int) :
    ∀ (l : List α) (m : α), bestMoveSpec score l = some m →
      ∀ c ∈ l, score c ≤ score m := by
  intro l
  induction l with
  | nil => intro m _ c hc; cases hc
  | cons c t ih =>
    intro m h x hx
    cases hspec : bestMoveSpec score t with
    | none =>
      simp only [bestMoveSpec, hspec, Option.some.injEq] at h
      subst h
      have ht : t = [] := (bestMoveSpec_none_iff score t).mp hspec
      subst ht
      rcases List.mem_cons.mp hx with h | h
      · exact le_of_eq (by rw [h])
      · cases h
    | some d =>
      simp only [bestMoveSpec, hspec] at h
      by_cases h2 : score c < score d
      · rw [if_pos h2] at h
        simp only [Option.some.injEq] at h
        subst h
        rcases List.mem_cons.mp hx with h | h
        · exact le_of_lt (h ▸ h2)
        · exact ih _ hspec x h
      · rw [if_neg h2] at h
        simp only [Option.some.injEq] at h
        subst h
        rcases List.mem_cons.mp hx with h | h
        · exact le_of_eq (by rw [h])
        · exact le_trans (ih d hspec x h) (by omega)

theorem bestMoveSpec_eq_of_split {α : Type} (score : α → Int) :
    ∀ (l1 : List α) (m : α) (l2 : List α),
      (∀ c ∈ l1, score c < score m) → (∀ c ∈ l2, score c ≤ score m) →
      bestMoveSpec score (l1 ++ m :: l2) = some m := by
  intro l1
  induction l1 with
  | nil =>
    intro m l2 _ h2
    cases hspec : bestMoveSpec score l2 with
    | none => simp [bestMoveSpec, hspec]
    | some d =>
      have hd : d ∈ l2 := bestMoveSpec_mem score l2 d hspec
      have hnd : ¬score m < score d := not_lt.mpr (h2 d hd)
      simp [bestMoveSpec, hspec, hnd]
  | cons a t ih =>
    intro m l2 h1 h2
    have hrec := ih m l2 (fun c hc => h1 c (List.mem_cons_of_mem a hc)) h2
    have ha : score a < score m := h1 a (List.mem_cons_self a t)
    rw [List.cons_append]
    simp [bestMoveSpec, hrec, ha]

theorem bestMoveSpec_first {α : Type} (score : α → Int) :
    ∀ (l : List α), l.Nodup → ∀ (m : α), bestMoveSpec score l = some m →
      ∀ (l1 l2 : List α), l = l1 ++ m :: l2 → ∀ c ∈ l1, score c < score m := by
  intro l
  induction l with
  | nil => intro _ m h; cases h
  | cons a t ih =>
    intro hnd m h l1 l2 hsplit c hc
    rcases List.nodup_cons.mp hnd with ⟨hat, hndt⟩
    cases hspec : bestMoveSpec score t with
    | none =>
      have ht : t = [] := (bestMoveSpec_none_iff score t).mp hspec
      simp only [bestMoveSpec, hspec, Option.some.injEq] at h
      subst h
      subst ht
      cases l1 with
      | nil => cases hc
      | cons a2 t1 =>
        rw [List.cons_append] at hsplit
        have h2 := (List.cons.inj hsplit).2
        exact absurd h2 (by simp)
    | some d =>
      simp only [bestMoveSpec, hspec] at h
      by_cases hcd : score a < score d
      · rw [if_pos hcd] at h
        simp only [Option.some.injEq] at h
        subst h
        cases l1 with
        | nil => cases hc
        | cons a2 t1 =>
          rw [List.cons_append] at hsplit
          obtain ⟨haa, hts⟩ := List.cons.inj hsplit
          rcases List.mem_cons.mp hc with hca | hct
          · rw [hca, ← haa]
            exact hcd
          · exact ih hndt _ hspec t1 l2 hts c hct
      · rw [if_neg hcd] at h
        simp only [Option.some.injEq] at h
        subst h
        cases l1 with
        | nil => cases hc
        | cons a2 t1 =>
          rw [List.cons_append] at hsplit
          obtain ⟨haa, hts⟩ := List.cons.inj hsplit
          exfalso
          apply hat
          rw [hts]
          exact List.mem_append_right t1 (List.mem_cons_self _ l2)

theorem bestMoveSpec_eq_of_unique {α : Type} (score : α → Int)
    (l : List α) (hnd : l.Nodup) (m : α) (hm : m ∈ l)
    (hstrict : ∀ c ∈ l, c ≠ m → score c < score m) :
    bestMoveSpec score l = some m := by
  obtain ⟨l1, l2, rfl⟩ := List.append_of_mem hm
  rcases List.nodup_append.mp hnd with ⟨hnd1, hnd2, hdisj⟩
  have hm1 : m ∉ l1 := fun hml1 => hdisj hml1 (List.mem_cons_self m l2)
  have hm2 : m ∉ l2 := (List.nodup_cons.mp hnd2).1
  apply bestMoveSpec_eq_of_split
  · intro c hc
    exact hstrict c (List.mem_append_left _ hc) (fun hcm => hm1 (hcm ▸ hc))
  · intro c hc
    exact le_of_lt (hstrict c (List.mem_append_right _ (List.mem_cons_of_mem m hc))
      (fun hcm => hm2 (hcm ▸ hc)))

theorem get_ai_moveWith_nil (choice : List (Fin 3 × Fin 3) → Option (Fin 3 × Fin 3))
    (b : Board) (ai : Cell) (h : get_valid_moves b = []) :
    get_ai_moveWith choice b ai = choice [] := by
  unfold get_ai_moveWith
  rw [h]
  rfl

theorem get_ai_moveWith_eq_spec (choice : List (Fin 3 × Fin 3) → Option (Fin 3 × Fin 3))
    (b : Board) (ai : Cell) (h : get_valid_moves b ≠ []) :
    get_ai_moveWith choice b ai = bestMoveSpec (moveScore b ai) (get_valid_moves b) := by
  obtain ⟨c, l, hcl⟩ : ∃ c l, get_valid_moves b = c :: l := by
    cases hv : get_valid_moves b with
    | nil => exact absurd hv h
    | cons c l => exact ⟨c, l, rfl⟩
  unfold get_ai_moveWith
  rw [hcl, pickBest_cons]
  have hmap := pickBest_snd (moveScore b ai) (c :: l)
  rw [pickBest_cons] at hmap
  simpa using hmap

theorem get_ai_move_eq_of_split (b : Board) (ai : Cell) (m : Fin 3 × Fin 3)
    (l1 l2 : List (Fin 3 × Fin 3)) (hsplit : get_valid_moves b = l1 ++ m :: l2)
    (h1 : ∀ c ∈ l1, moveScore b ai c < moveScore b ai m)
    (h2 : ∀ c ∈ l2, moveScore b ai c ≤ moveScore b ai m) :
    get_ai_move b ai = some m := by
  have hne : get_valid_moves b ≠ [] := by
    rw [hsplit]
    simp
  rw [get_ai_move, get_ai_moveWith_eq_spec _ _ _ hne, hsplit]
  exact bestMoveSpec_eq_of_split _ l1 m l2 h1 h2

theorem get_ai_move_nil (b : Board) (ai : Cell) (h : get_valid_moves b = []) :
    get_ai_move b ai = none :=
  get_ai_moveWith_nil random_choice b ai h

/-! ## The engine-vs-engine game, move by move

Each ply's move is settled with `get_ai_move_eq_of_split`: the chosen move
carries a certified lower bound on its score, every other candidate a
certified upper bound (strict for the candidates enumerated before the
chosen one). -/

theorem trace0 : get_ai_move emptyBoard Cell.X = some (0, 0) := by
  apply get_ai_move_eq_of_split emptyBoard Cell.X (0, 0) []
    [(0, 1), (0, 2), (1, 0), (1, 1), (1, 2), (2, 0), (2, 1), (2, 2)]
  · decide
  · intro c hc
    simp at hc
  · intro c hc
    have hm := le_moveScore_of emptyBoard Cell.X (0, 0) 0 (by decide)
    fin_cases hc <;>
      exact le_trans (moveScore_le_of _ _ _ 0 (by decide)) hm

theorem trace1 : get_ai_move gameB1 Cell.O = some (1, 1) := by
  apply get_ai_move_eq_of_split gameB1 Cell.O (1, 1) [(0, 1), (0, 2), (1, 0)]
    [(1, 2), (2, 0), (2, 1), (2, 2)]
  · decide
  · intro c hc
    have hm := le_moveScore_of gameB1 Cell.O (1, 1) 0 (by decide)
    fin_cases hc <;>
      exact lt_of_le_of_lt (moveScore_le_of _ _ _ (-1) (by decide)) (by omega)
  · intro c hc
    have hm := le_moveScore_of gameB1 Cell.O (1, 1) 0 (by decide)
    fin_cases hc <;>
      exact le_trans (moveScore_le_of _ _ _ 0 (by decide)) hm

theorem trace2 : get_ai_move gameB2 Cell.X = some (0, 1) := by
  apply get_ai_move_eq_of_split gameB2 Cell.X (0, 1) []
    [(0, 2), (1, 0), (1, 2), (2, 0), (2, 1), (2, 2)]
  · decide
  · intro c hc
    simp at hc
  · intro c hc
    have hm := le_moveScore_of gameB2 Cell.X (0, 1) 0 (by decide)
    fin_cases hc <;>
      exact le_trans (moveScore_le_of _ _ _ 0 (by decide)) hm

theorem trace3 : get_ai_move gameB3 Cell.O = some (0, 2) := by
  apply get_ai_move_eq_of_split gameB3 Cell.O (0, 2) []
    [(1, 0), (1, 2), (2, 0), (2, 1), (2, 2)]
  · decide
  · intro c hc
    simp at hc
  · intro c hc
    have hm := le_moveScore_of gameB3 Cell.O (0, 2) 0 (by decide)
    fin_cases hc <;>
      exact le_trans (moveScore_le_of _ _ _ 0 (by decide)) hm

theorem trace4 : get_ai_move gameB4 Cell.X = some (2, 0) := by
  apply get_ai_move_eq_of_split gameB4 Cell.X (2, 0) [(1, 0), (1, 2)]
    [(2, 1), (2, 2)]
  · decide
  · intro c hc
    have hm := le_moveScore_of gameB4 Cell.X (2, 0) 0 (by decide)
    fin_cases hc <;>
      exact lt_of_le_of_lt (moveScore_le_of _ _ _ (-1) (by decide)) (by omega)
  · intro c hc
    have hm := le_moveScore_of gameB4 Cell.X (2, 0) 0 (by decide)
    fin_cases hc <;>
      exact le_trans (moveScore_le_of _ _ _ 0 (by decide)) hm

theorem trace5 : get_ai_move gameB5 Cell.O = some (1, 0) := by
  apply get_ai_move_eq_of_split gameB5 Cell.O (1, 0) []
    [(1, 2), (2, 1), (2, 2)]
  · decide
  · intro c hc
    simp at hc
  · intro c hc
    have hm := le_moveScore_of gameB5 Cell.O (1, 0) 0 (by decide)
    fin_cases hc <;>
      exact le_trans (moveScore_le_of _ _ _ 0 (by decide)) hm

theorem trace6 : get_ai_move gameB6 Cell.X = some (1, 2) := by
  apply get_ai_move_eq_of_split gameB6 Cell.X (1, 2) [] [(2, 1), (2, 2)]
  · decide
  · intro c hc
    simp at hc
  · intro c hc
    have hm := le_moveScore_of gameB6 Cell.X (1, 2) 0 (by decide)
    fin_cases hc <;>
      exact le_trans (moveScore_le_of _ _ _ 0 (by decide)) hm

theorem trace7 : get_ai_move gameB7 Cell.O = some (2, 1) := by
  apply get_ai_move_eq_of_split gameB7 Cell.O (2, 1) [] [(2, 2)]
  · decide
  · intro c hc
    simp at hc
  · intro c hc
    have hm := le_moveScore_of gameB7 Cell.O (2, 1) 0 (by decide)
    fin_cases hc
    exact le_trans (moveScore_le_of _ _ _ 0 (by decide)) hm

theorem trace8 : get_ai_move gameB8 Cell.X = some (2, 2) := by
  apply get_ai_move_eq_of_split gameB8 Cell.X (2, 2) [] []
  · decide
  · intro c hc
    simp at hc
  · intro c hc
    simp at hc

theorem selfPlayAux_step (fuel : Nat) (b : Board) (turn : Nat) (pl : Cell)
    (mv : Fin 3 × Fin 3)
    (hpl : (if turn % 2 = 0 then Cell.X else Cell.O) = pl)
    (hmv : get_ai_move b pl = some mv)
    (hw : check_winner (setCell b mv pl) pl = false)
    (hf : is_full (setCell b mv pl) = false) :
    selfPlayAux (fuel + 1) b turn = selfPlayAux fuel (setCell b mv pl) (turn + 1) := by
  simp only [selfPlayAux, hpl, hmv, hw, hf, Bool.false_eq_true, if_false]

theorem selfPlayAux_tie (fuel : Nat) (b : Board) (turn : Nat) (pl : Cell)
    (mv : Fin 3 × Fin 3)
    (hpl : (if turn % 2 = 0 then Cell.X else Cell.O) = pl)
    (hmv : get_ai_move b pl = some mv)
    (hw : check_winner (setCell b mv pl) pl = false)
    (hf : is_full (setCell b mv pl) = true) :
    selfPlayAux (fuel + 1) b turn = (setCell b mv pl, Result.tie) := by
  simp only [selfPlayAux, hpl, hmv, hw, hf, Bool.false_eq_true, if_false, if_true]

theorem selfPlay_eq : selfPlay = (gameB9, Result.tie) := by
  unfold selfPlay
  rw [selfPlayAux_step 8 emptyBoard 0 Cell.X (0, 0) (by decide) trace0 (by decide) (by decide)]
  rw [show setCell emptyBoard (0, 0) Cell.X = gameB1 from rfl]
  rw [selfPlayAux_step 7 gameB1 1 Cell.O (1, 1) (by decide) trace1 (by decide) (by decide)]
  rw [show setCell gameB1 (1, 1) Cell.O = gameB2 from rfl]
  rw [selfPlayAux_step 6 gameB2 2 Cell.X (0, 1) (by decide) trace2 (by decide) (by decide)]
  rw [show setCell gameB2 (0, 1) Cell.X = gameB3 from rfl]
  rw [selfPlayAux_step 5 gameB3 3 Cell.O (0, 2) (by decide) trace3 (by decide) (by decide)]
  rw [show setCell gameB3 (0, 2) Cell.O = gameB4 from rfl]
  rw [selfPlayAux_step 4 gameB4 4 Cell.X (2, 0) (by decide) trace4 (by decide) (by decide)]
  rw [show setCell gameB4 (2, 0) Cell.X = gameB5 from rfl]
  rw [selfPlayAux_step 3 gameB5 5 Cell.O (1, 0) (by decide) trace5 (by decide) (by decide)]
  rw [show setCell gameB5 (1, 0) Cell.O = gameB6 from rfl]
  rw [selfPlayAux_step 2 gameB6 6 Cell.X (1, 2) (by decide) trace6 (by decide) (by decide)]
  rw [show setCell gameB6 (1, 2) Cell.X = gameB7 from rfl]
  rw [selfPlayAux_step 1 gameB7 7 Cell.O (2, 1) (by decide) trace7 (by decide) (by decide)]
  rw [show setCell gameB7 (2, 1) Cell.O = gameB8 from rfl]
  rw [selfPlayAux_tie 0 gameB8 8 Cell.X (2, 2) (by decide) trace8 (by decide) (by decide)]
  rfl

/-! ## The mutate-then-undo search restores the caller's board -/

theorem setCell_setCell (b : Board) (c : Fin 3 × Fin 3) (v w : Cell) :
    setCell (setCell b c v) c w = setCell b c w := by
  funext i j
  unfold setCell
  by_cases h : i = c.1 ∧ j = c.2 <;> simp [h]

theorem setCell_empty_self (b : Board) (c : Fin 3 × Fin 3)
    (h : b c.1 c.2 = Cell.empty) : setCell b c Cell.empty = b := by
  funext i j
  unfold setCell
  by_cases hij : i = c.1 ∧ j = c.2
  · rw [if_pos hij, hij.1, hij.2, h]
  · rw [if_neg hij]

theorem foldl_invariant {α β : Type} (P : α → Prop) (step : α → β → α) :
    ∀ (l : List β) (init : α), P init →
      (∀ a c, c ∈ l → P a → P (step a c)) → P (l.foldl step init) := by
  intro l
  induction l with
  | nil => intro init h _; exact h
  | cons c t ih =>
    intro init h hstep
    exact ih (step init c) (hstep init c (List.mem_cons_self c t) h)
      (fun a c2 hc2 => hstep a c2 (List.mem_cons_of_mem c hc2))

theorem minimaxState_board :
    ∀ (f : Nat) (b : Board) (d : Nat) (im : Bool) (ai : Cell),
      (minimaxState f b d im ai).2 = b := by
  intro f
  induction f with
  | zero => intro b d im ai; rfl
  | succ g ih =>
    intro b d im ai
    by_cases h1 : check_winner b ai
    · simp [minimaxState, h1]
    by_cases h2 : check_winner b (other ai)
    · simp [minimaxState, h1, h2]
    by_cases h3 : is_full b
    · simp [minimaxState, h1, h2, h3]
    cases im with
    | true =>
      have hval : minimaxState (g + 1) b d true ai =
          (get_valid_moves b).foldl
            (fun (acc : Int × Board) c =>
              let b1 := setCell acc.2 c ai
              let r := minimaxState g b1 (d + 1) false ai
              let b3 := setCell r.2 c Cell.empty
              (max r.1 acc.1, b3)) (-2, b) := by
        simp [minimaxState, h1, h2, h3]
      rw [hval]
      apply foldl_invariant (fun acc : Int × Board => acc.2 = b)
      · rfl
      · intro a c hc ha
        show setCell (minimaxState g (setCell a.2 c ai) (d + 1) false ai).2 c
          Cell.empty = b
        rw [ha, ih, setCell_setCell, setCell_empty_self b c (mem_get_valid_moves.mp hc)]
    | false =>
      have hval : minimaxState (g + 1) b d false ai =
          (get_valid_moves b).foldl
            (fun (acc : Int × Board) c =>
              let b1 := setCell acc.2 c (other ai)
              let r := minimaxState g b1 (d + 1) true ai
              let b3 := setCell r.2 c Cell.empty
              (min r.1 acc.1, b3)) (2, b) := by
        simp [minimaxState, h1, h2, h3]
      rw [hval]
      apply foldl_invariant (fun acc : Int × Board => acc.2 = b)
      · rfl
      · intro a c hc ha
        show setCell (minimaxState g (setCell a.2 c (other ai)) (d + 1) true ai).2 c
          Cell.empty = b
        rw [ha, ih, setCell_setCell, setCell_empty_self b c (mem_get_valid_moves.mp hc)]

theorem get_ai_moveState_board (b : Board) (ai : Cell) :
    (get_ai_moveState b ai).2 = b := by
  unfold get_ai_moveState
  show ((get_valid_moves b).foldl _ (none, b)).2 = b
  apply foldl_invariant (fun acc : Option (Int × (Fin 3 × Fin 3)) × Board => acc.2 = b)
  · rfl
  · intro a c hc ha
    show setCell (minimaxState 10 (setCell a.2 c ai) 0 false ai).2 c Cell.empty = b
    rw [ha, minimaxState_board, setCell_setCell,
      setCell_empty_self b c (mem_get_valid_moves.mp hc)]

theorem minimaxState_value :
    ∀ (f : Nat) (b : Board) (d : Nat) (im : Bool) (ai : Cell),
      (minimaxState f b d im ai).1 = minimaxAux f b d im ai := by
  intro f
  induction f with
  | zero => intro b d im ai; rfl
  | succ g ih =>
    intro b d im ai
    by_cases h1 : check_winner b ai
    · simp [minimaxState, minimaxAux, h1]
    by_cases h2 : check_winner b (other ai)
    · simp [minimaxState, minimaxAux, h1, h2]
    by_cases h3 : is_full b
    · simp [minimaxState, minimaxAux, h1, h2, h3]
    have haux : ∀ (v : Cell) (im2 : Bool) (comb : Int → Int → Int) (l : List (Fin 3 × Fin 3)),
        (∀ c ∈ l, c ∈ get_valid_moves b) → ∀ (s : Int),
        (l.foldl
          (fun (acc : Int × Board) c =>
            let b1 := setCell acc.2 c v
            let r := minimaxState g b1 (d + 1) im2 ai
            let b3 := setCell r.2 c Cell.empty
            (comb r.1 acc.1, b3)) (s, b)).1 =
        l.foldl
          (fun a c => comb (minimaxAux g (setCell b c v) (d + 1) im2 ai) a) s := by
      intro v im2 comb l
      induction l with
      | nil => intro _ s; rfl
      | cons c t iht =>
        intro hmem s
        have hcv : c ∈ get_valid_moves b := hmem c (List.mem_cons_self c t)
        have hstep :
            (fun (acc : Int × Board) c =>
              let b1 := setCell acc.2 c v
              let r := minimaxState g b1 (d + 1) im2 ai
              let b3 := setCell r.2 c Cell.empty
              (comb r.1 acc.1, b3)) (s, b) c =
            (comb (minimaxAux g (setCell b c v) (d + 1) im2 ai) s, b) := by
          show (comb (minimaxState g (setCell b c v) (d + 1) im2 ai).1 s,
              setCell (minimaxState g (setCell b c v) (d + 1) im2 ai).2 c Cell.empty) = _
          rw [ih, minimaxState_board, setCell_setCell,
            setCell_empty_self b c (mem_get_valid_moves.mp hcv)]
        exact Eq.trans
          (congrArg
            (fun z : Int × Board =>
              (List.foldl
                (fun (acc : Int × Board) c =>
                  let b1 := setCell acc.2 c v
                  let r := minimaxState g b1 (d + 1) im2 ai
                  let b3 := setCell r.2 c Cell.empty
                  (comb r.1 acc.1, b3)) z t).1)
            hstep)
          (iht (fun c2 hc2 => hmem c2 (List.mem_cons_of_mem c hc2)) _)
    cases im with
    | true =>
      have hv1 : minimaxState (g + 1) b d true ai =
          (get_valid_moves b).foldl
            (fun (acc : Int × Board) c =>
              let b1 := setCell acc.2 c ai
              let r := minimaxState g b1 (d + 1) false ai
              let b3 := setCell r.2 c Cell.empty
              (max r.1 acc.1, b3)) (-2, b) := by
        simp [minimaxState, h1, h2, h3]
      have hv2 : minimaxAux (g + 1) b d true ai =
          (get_valid_moves b).foldl
            (fun a c => max (minimaxAux g (setCell b c ai) (d + 1) false ai) a) (-2) := by
        simp [minimaxAux, h1, h2, h3]
      rw [hv1, hv2]
      exact haux ai false max (get_valid_moves b) (fun c hc => hc) (-2)
    | false =>
      have hv1 : minimaxState (g + 1) b d false ai =
          (get_valid_moves b).foldl
            (fun (acc : Int × Board) c =>
              let b1 := setCell acc.2 c (other ai)
              let r := minimaxState g b1 (d + 1) true ai
              let b3 := setCell r.2 c Cell.empty
              (min r.1 acc.1, b3)) (2, b) := by
        simp [minimaxState, h1, h2, h3]
      have hv2 : minimaxAux (g + 1) b d false ai =
          (get_valid_moves b).foldl
            (fun a c => min (minimaxAux g (setCell b c (other ai)) (d + 1) true ai) a) 2 := by
        simp [minimaxAux, h1, h2, h3]
      rw [hv1, hv2]
      exact haux (other ai) true min (get_valid_moves b) (fun c hc => hc) 2

/-! ## Unfolding lemmas for the terminal checks, and winning lines -/

theorem minimaxAux_win_ai (f : Nat) (b : Board) (d : Nat) (im : Bool) (ai : Cell)
    (h : check_winner b ai = true) : minimaxAux (f + 1) b d im ai = 1 := by
  simp [minimaxAux, h]

theorem minimaxAux_win_other (f : Nat) (b : Board) (d : Nat) (im : Bool) (ai : Cell)
    (h1 : check_winner b ai = false) (h2 : check_winner b (other ai) = true) :
    minimaxAux (f + 1) b d im ai = -1 := by
  simp [minimaxAux, h1, h2]

theorem minimaxAux_tie (f : Nat) (b : Board) (d : Nat) (im : Bool) (ai : Cell)
    (h1 : check_winner b ai = false) (h2 : check_winner b (other ai) = false)
    (h3 : is_full b = true) : minimaxAux (f + 1) b d im ai = 0 := by
  simp [minimaxAux, h1, h2, h3]

theorem minimaxAux_max_unfold (f : Nat) (b : Board) (d : Nat) (ai : Cell)
    (h1 : check_winner b ai = false) (h2 : check_winner b (other ai) = false)
    (h3 : is_full b = false) :
    minimaxAux (f + 1) b d true ai =
      (get_valid_moves b).foldl
        (fun a c => max (minimaxAux f (setCell b c ai) (d + 1) false ai) a) (-2) := by
  simp [minimaxAux, h1, h2, h3]

theorem minimaxAux_min_unfold (f : Nat) (b : Board) (d : Nat) (ai : Cell)
    (h1 : check_winner b ai = false) (h2 : check_winner b (other ai) = false)
    (h3 : is_full b = false) :
    minimaxAux (f + 1) b d false ai =
      (get_valid_moves b).foldl
        (fun a c => min (minimaxAux f (setCell b c (other ai)) (d + 1) true ai) a) 2 := by
  simp [minimaxAux, h1, h2, h3]

theorem other_ne_self (p : Cell) : other p ≠ p := by
  cases p <;> simp [other]

theorem setCell_apply_self (b : Board) (c : Fin 3 × Fin 3) (v : Cell) :
    setCell b c v c.1 c.2 = v := by
  unfold setCell
  rw [if_pos ⟨rfl, rfl⟩]

theorem setCell_apply_of_ne (b : Board) (c : Fin 3 × Fin 3) (v : Cell)
    (x : Fin 3 × Fin 3) (h : x ≠ c) : setCell b c v x.1 x.2 = b x.1 x.2 := by
  unfold setCell
  rw [if_neg]
  intro hand
  exact h (Prod.ext hand.1 hand.2)

theorem is_full_false_of_mem {b : Board} {c : Fin 3 × Fin 3}
    (hc : c ∈ get_valid_moves b) : is_full b = false := by
  by_contra h
  have h2 : is_full b = true := by simpa using h
  rw [← get_valid_moves_nil_iff] at h2
  rw [h2] at hc
  cases hc

theorem check_winner_iff (b : Board) (p : Cell) :
    check_winner b p = true ↔
      (∃ i : Fin 3, (∀ j : Fin 3, b i j = p) ∨ (∀ j : Fin 3, b j i = p)) ∨
      (∀ i : Fin 3, b i i = p) ∨ (∀ i : Fin 3, b i (2 - i) = p) := by
  unfold check_winner
  simp only [Bool.or_eq_true, List.any_eq_true, List.all_eq_true, List.mem_finRange,
    true_and, decide_eq_true_eq, forall_const]
  exact or_assoc

theorem check_winner_iff_line (b : Board) (p : Cell) :
    check_winner b p = true ↔
      ∃ t ∈ winLines,
        b t.1.1 t.1.2 = p ∧ b t.2.1.1 t.2.1.2 = p ∧ b t.2.2.1 t.2.2.2 = p := by
  rw [check_winner_iff]
  constructor
  · rintro (⟨i, hrow | hcol⟩ | hd | ha)
    · fin_cases i
      · exact ⟨((0, 0), (0, 1), (0, 2)), by decide, hrow 0, hrow 1, hrow 2⟩
      · exact ⟨((1, 0), (1, 1), (1, 2)), by decide, hrow 0, hrow 1, hrow 2⟩
      · exact ⟨((2, 0), (2, 1), (2, 2)), by decide, hrow 0, hrow 1, hrow 2⟩
    · fin_cases i
      · exact ⟨((0, 0), (1, 0), (2, 0)), by decide, hcol 0, hcol 1, hcol 2⟩
      · exact ⟨((0, 1), (1, 1), (2, 1)), by decide, hcol 0, hcol 1, hcol 2⟩
      · exact ⟨((0, 2), (1, 2), (2, 2)), by decide, hcol 0, hcol 1, hcol 2⟩
    · exact ⟨((0, 0), (1, 1), (2, 2)), by decide, hd 0, hd 1, hd 2⟩
    · exact ⟨((0, 2), (1, 1), (2, 0)), by decide, ha 0, ha 1, ha 2⟩
  · rintro ⟨t, ht, h1, h2, h3⟩
    fin_cases ht
    · exact Or.inl ⟨0, Or.inl fun j => by
        fin_cases j <;> first | exact h1 | exact h2 | exact h3⟩
    · exact Or.inl ⟨1, Or.inl fun j => by
        fin_cases j <;> first | exact h1 | exact h2 | exact h3⟩
    · exact Or.inl ⟨2, Or.inl fun j => by
        fin_cases j <;> first | exact h1 | exact h2 | exact h3⟩
    · exact Or.inl ⟨0, Or.inr fun j => by
        fin_cases j <;> first | exact h1 | exact h2 | exact h3⟩
    · exact Or.inl ⟨1, Or.inr fun j => by
        fin_cases j <;> first | exact h1 | exact h2 | exact h3⟩
    · exact Or.inl ⟨2, Or.inr fun j => by
        fin_cases j <;> first | exact h1 | exact h2 | exact h3⟩
    · exact Or.inr (Or.inl fun i => by
        fin_cases i <;> first | exact h1 | exact h2 | exact h3)
    · exact Or.inr (Or.inr fun i => by
        fin_cases i <;> first | exact h1 | exact h2 | exact h3)

theorem check_winner_setCell_ne (b : Board) (c : Fin 3 × Fin 3) (v p : Cell)
    (hvp : v ≠ p) (h : check_winner (setCell b c v) p = true) :
    check_winner b p = true := by
  rw [check_winner_iff_line] at h ⊢
  obtain ⟨t, ht, h1, h2, h3⟩ := h
  have key : ∀ x : Fin 3 × Fin 3, setCell b c v x.1 x.2 = p → b x.1 x.2 = p := by
    intro x hx
    by_cases hxc : x = c
    · subst hxc
      rw [setCell_apply_self] at hx
      exact absurd hx hvp
    · rw [setCell_apply_of_ne b c v x hxc] at hx
      exact hx
  exact ⟨t, ht, key _ h1, key _ h2, key _ h3⟩

theorem get_ai_move_eq_of_unique (b : Board) (ai : Cell) (m : Fin 3 × Fin 3)
    (hm : m ∈ get_valid_moves b)
    (hstrict : ∀ c ∈ get_valid_moves b, c ≠ m → moveScore b ai c < moveScore b ai m) :
    get_ai_move b ai = some m := by
  have hne : get_valid_moves b ≠ [] := List.ne_nil_of_mem hm
  rw [get_ai_move, get_ai_moveWith_eq_spec _ _ _ hne]
  exact bestMoveSpec_eq_of_unique _ _ (get_valid_moves_nodup b) m hm hstrict

/-! ## The claims -/

/-- C1. If the engine plays every move for both sides starting from the
empty board (each ply choosing the move returned by `get_ai_move` for the
mark to move, that mark being its own maximising player), the game never
ends with either mark satisfying `check_winner`; it ends in a tie on a
full board. -/
theorem C1_selfplay_always_drawn :
    selfPlay.2 = Result.tie ∧ is_full selfPlay.1 = true ∧
    check_winner selfPlay.1 Cell.X = false ∧
    check_winner selfPlay.1 Cell.O = false := by
  rw [selfPlay_eq]
  exact ⟨rfl, by decide, by decide, by decide⟩

/-- C2. For every board, depth, turn flag and maximising mark in
{X, O}, `minimax` returns a score in {-1, 0, 1}, and it is computed by the
fixed priority order of terminal checks — 1 if the maximising mark has
won, else -1 if the opponent has won, else 0 if the board is full — and
otherwise equals the max (on the maximising player's turn) respectively
the min (otherwise) of the recursive evaluations of the successors of all
legal moves. -/
theorem C2_evaluate_range_and_priority (b : Board) (d : Nat) (im : Bool) (ai : Cell)
    (hai : ai = Cell.X ∨ ai = Cell.O) :
    (minimax b d im ai = -1 ∨ minimax b d im ai = 0 ∨ minimax b d im ai = 1) ∧
    (check_winner b ai = true → minimax b d im ai = 1) ∧
    (check_winner b ai = false → check_winner b (other ai) = true →
      minimax b d im ai = -1) ∧
    (check_winner b ai = false → check_winner b (other ai) = false →
      is_full b = true → minimax b d im ai = 0) ∧
    (check_winner b ai = false → check_winner b (other ai) = false →
      is_full b = false → im = true →
      (∃ c ∈ get_valid_moves b,
        minimax b d im ai = minimax (setCell b c ai) (d + 1) false ai) ∧
      (∀ c ∈ get_valid_moves b,
        minimax (setCell b c ai) (d + 1) false ai ≤ minimax b d im ai)) ∧
    (check_winner b ai = false → check_winner b (other ai) = false →
      is_full b = false → im = false →
      (∃ c ∈ get_valid_moves b,
        minimax b d im ai = minimax (setCell b c (other ai)) (d + 1) true ai) ∧
      (∀ c ∈ get_valid_moves b,
        minimax b d im ai ≤ minimax (setCell b c (other ai)) (d + 1) true ai)) := by
  have hne : ai ≠ Cell.empty := by rcases hai with rfl | rfl <;> simp
  refine ⟨?_, ?_, ?_, ?_, ?_, ?_⟩
  · rcases minimax_range b d im ai with ⟨hlo, hhi⟩
    omega
  · intro h
    exact minimaxAux_win_ai 9 b d im ai h
  · intro h1 h2
    exact minimaxAux_win_other 9 b d im ai h1 h2
  · intro h1 h2 h3
    exact minimaxAux_tie 9 b d im ai h1 h2 h3
  · intro h1 h2 h3 him
    subst him
    have hnil : get_valid_moves b ≠ [] := by
      intro hns
      rw [(get_valid_moves_nil_iff b).mp hns] at h3
      cases h3
    have hcongr : ∀ c ∈ get_valid_moves b,
        minimaxAux 9 (setCell b c ai) (d + 1) false ai =
        minimax (setCell b c ai) (d + 1) false ai := by
      intro c hc
      have hcnt := emptyCount_setCell b c ai hne hc
      have h9 := emptyCount_le_nine b
      exact minimaxAux_congr 9 10 _ _ _ _ _ hne (by omega) (by omega)
    have hval : minimax b d true ai =
        (get_valid_moves b).foldl
          (fun a c => max (minimax (setCell b c ai) (d + 1) false ai) a) (-2) := by
      rw [show minimax b d true ai = minimaxAux (9 + 1) b d true ai from rfl,
        minimaxAux_max_unfold 9 b d ai h1 h2 h3]
      apply List.foldl_ext
      intro a c hc
      rw [hcongr c hc]
    constructor
    · rcases foldl_max_cases (fun c => minimax (setCell b c ai) (d + 1) false ai)
          (get_valid_moves b) (-2) with hcase | ⟨c, hc, hcase⟩
      · exfalso
        obtain ⟨c0, hc0⟩ := List.exists_mem_of_ne_nil _ hnil
        have hb : minimax (setCell b c0 ai) (d + 1) false ai ≤
            (get_valid_moves b).foldl
              (fun a c => max (minimax (setCell b c ai) (d + 1) false ai) a) (-2) :=
          foldl_max_of_mem _ _ _ _ hc0
        rw [hcase] at hb
        have := (minimax_range (setCell b c0 ai) (d + 1) false ai).1
        omega
      · exact ⟨c, hc, by rw [hval, hcase]⟩
    · intro c hc
      rw [hval]
      exact foldl_max_of_mem _ _ _ _ hc
  · intro h1 h2 h3 him
    subst him
    have hnil : get_valid_moves b ≠ [] := by
      intro hns
      rw [(get_valid_moves_nil_iff b).mp hns] at h3
      cases h3
    have hcongr : ∀ c ∈ get_valid_moves b,
        minimaxAux 9 (setCell b c (other ai)) (d + 1) true ai =
        minimax (setCell b c (other ai)) (d + 1) true ai := by
      intro c hc
      have hcnt := emptyCount_setCell b c (other ai) (other_ne_empty ai) hc
      have h9 := emptyCount_le_nine b
      exact minimaxAux_congr 9 10 _ _ _ _ _ hne (by omega) (by omega)
    have hval : minimax b d false ai =
        (get_valid_moves b).foldl
          (fun a c => min (minimax (setCell b c (other ai)) (d + 1) true ai) a) 2 := by
      rw [show minimax b d false ai = minimaxAux (9 + 1) b d false ai from rfl,
        minimaxAux_min_unfold 9 b d ai h1 h2 h3]
      apply List.foldl_ext
      intro a c hc
      rw [hcongr c hc]
    constructor
    · rcases foldl_min_cases (fun c => minimax (setCell b c (other ai)) (d + 1) true ai)
          (get_valid_moves b) 2 with hcase | ⟨c, hc, hcase⟩
      · exfalso
        obtain ⟨c0, hc0⟩ := List.exists_mem_of_ne_nil _ hnil
        have hb : (get_valid_moves b).foldl
              (fun a c => min (minimax (setCell b c (other ai)) (d + 1) true ai) a) 2 ≤
            minimax (setCell b c0 (other ai)) (d + 1) true ai :=
          foldl_min_of_mem _ _ _ _ hc0
        rw [hcase] at hb
        have := (minimax_range (setCell b c0 (other ai)) (d + 1) true ai).2
        omega
      · exact ⟨c, hc, by rw [hval, hcase]⟩
    · intro c hc
      rw [hval]
      exact foldl_min_of_mem _ _ _ _ hc

/-- Witness for C2 at a concrete board and mark. -/
theorem C2_witness :
    minimax gameB2 0 true Cell.X = -1 ∨ minimax gameB2 0 true Cell.X = 0 ∨
    minimax gameB2 0 true Cell.X = 1 :=
  (C2_evaluate_range_and_priority gameB2 0 true Cell.X (Or.inl rfl)).1

/-- C3. Whenever at least one legal move exists, `get_ai_move` returns the
first move in row-major enumeration order among those attaining the
maximum score: the returned move is legal, its score is maximal, and every
move listed before it scores strictly less; in particular, on the empty
board with the engine playing `X` it returns (0, 0). -/
theorem C3_selectMove_first_argmax :
    (∀ (b : Board) (ai : Cell), get_valid_moves b ≠ [] →
      ∃ m, get_ai_move b ai = some m ∧ m ∈ get_valid_moves b ∧
        (∀ c ∈ get_valid_moves b, moveScore b ai c ≤ moveScore b ai m) ∧
        (∀ l1 l2, get_valid_moves b = l1 ++ m :: l2 →
          ∀ c ∈ l1, moveScore b ai c < moveScore b ai m)) ∧
    get_ai_move emptyBoard Cell.X = some (0, 0) := by
  constructor
  · intro b ai hne
    have hspec := get_ai_moveWith_eq_spec random_choice b ai hne
    cases hbs : bestMoveSpec (moveScore b ai) (get_valid_moves b) with
    | none => exact absurd ((bestMoveSpec_none_iff _ _).mp hbs) hne
    | some m =>
      refine ⟨m, ?_, bestMoveSpec_mem _ _ _ hbs, bestMoveSpec_max _ _ _ hbs, ?_⟩
      · rw [get_ai_move, hspec, hbs]
      · intro l1 l2 hsplit
        exact bestMoveSpec_first _ _ (get_valid_moves_nodup b) m hbs l1 l2 hsplit
  · exact trace0

/-- Witness for C3 at a concrete board with legal moves. -/
theorem C3_witness :
    ∃ m, get_ai_move gameB1 Cell.O = some m ∧ m ∈ get_valid_moves gameB1 ∧
      (∀ c ∈ get_valid_moves gameB1,
        moveScore gameB1 Cell.O c ≤ moveScore gameB1 Cell.O m) ∧
      (∀ l1 l2, get_valid_moves gameB1 = l1 ++ m :: l2 →
        ∀ c ∈ l1, moveScore gameB1 Cell.O c < moveScore gameB1 Cell.O m) :=
  C3_selectMove_first_argmax.1 gameB1 Cell.O (by decide)

/-- Helper for the C4 counterexample: on `boardC4` the engine prefers the
earlier forced-win move (0, 1) over the immediate win at (2, 2). -/
theorem boardC4_move : get_ai_move boardC4 Cell.X = some (0, 1) := by
  apply get_ai_move_eq_of_split boardC4 Cell.X (0, 1) []
    [(0, 2), (1, 2), (2, 1), (2, 2)]
  · decide
  · intro c hc
    simp at hc
  · intro c hc
    have hm := le_moveScore_of boardC4 Cell.X (0, 1) 1 (by decide)
    exact le_trans (moveScore_range boardC4 Cell.X c).2 hm

/-- C4, counterexample. `boardC4` is non-terminal, `X` has the immediate
winning move (2, 2), yet `get_ai_move` returns (0, 1), whose application
does not make `X` a winner — the claim "selectMove returns a move whose
application makes hasWon(aiMark) true whenever an immediate winning move
exists" is false on the code. -/
theorem C4_counterexample :
    check_winner boardC4 Cell.X = false ∧ check_winner boardC4 Cell.O = false ∧
    is_full boardC4 = false ∧
    (2, 2) ∈ get_valid_moves boardC4 ∧
    check_winner (setCell boardC4 (2, 2) Cell.X) Cell.X = true ∧
    get_ai_move boardC4 Cell.X = some (0, 1) ∧
    check_winner (setCell boardC4 (0, 1) Cell.X) Cell.X = false :=
  ⟨by decide, by decide, by decide, by decide, by decide, boardC4_move, by decide⟩

/-- C4, amended. If the engine's mark has an immediate winning move, the
move `get_ai_move` returns has minimax score 1 — a move from which the
engine's win is forced — though it need not itself be the immediately
winning move. -/
theorem C4_amended_forced_win_score (b : Board) (ai : Cell) (m : Fin 3 × Fin 3)
    (hm : m ∈ get_valid_moves b)
    (hwin : check_winner (setCell b m ai) ai = true) :
    ∃ m2, get_ai_move b ai = some m2 ∧ moveScore b ai m2 = 1 := by
  have hne : get_valid_moves b ≠ [] := List.ne_nil_of_mem hm
  have hspec := get_ai_moveWith_eq_spec random_choice b ai hne
  cases hbs : bestMoveSpec (moveScore b ai) (get_valid_moves b) with
  | none => exact absurd ((bestMoveSpec_none_iff _ _).mp hbs) hne
  | some m2 =>
    refine ⟨m2, by rw [get_ai_move, hspec, hbs], ?_⟩
    have h1 : moveScore b ai m = 1 := minimaxAux_win_ai 9 _ _ _ _ hwin
    have hle := bestMoveSpec_max _ _ _ hbs m hm
    have hub := (moveScore_range b ai m2).2
    omega

/-- Witness for the amended C4 on `boardC4`. -/
theorem C4_amended_witness :
    ∃ m2, get_ai_move boardC4 Cell.X = some m2 ∧ moveScore boardC4 Cell.X m2 = 1 :=
  C4_amended_forced_win_score boardC4 Cell.X (2, 2) (by decide) (by decide)

/-- Helper for the C5 counterexample: on `boardC5` every move loses, so
the engine returns the row-major-first empty cell (0, 2), not the
column-0 blocking cell (2, 0). -/
theorem boardC5_move : get_ai_move boardC5 Cell.X = some (0, 2) := by
  apply get_ai_move_eq_of_split boardC5 Cell.X (0, 2) [] [(1, 2), (2, 0), (2, 1)]
  · decide
  · intro c hc
    simp at hc
  · intro c hc
    have hm := (moveScore_range boardC5 Cell.X (0, 2)).1
    fin_cases hc <;>
      exact le_trans (moveScore_le_of _ _ _ (-1) (by decide)) hm

/-- C5, counterexample. On `boardC5` the opponent `O` holds two cells of
the winning line (0,0)-(1,0)-(2,0) whose third cell (2,0) is empty and no
move gives `X` an immediate win, yet `get_ai_move` returns (0, 2), not the
blocking cell (2, 0) — the claim as stated is false on the code. -/
theorem C5_counterexample :
    ((0, 0), (1, 0), (2, 0)) ∈ winLines ∧
    boardC5 0 0 = other Cell.X ∧ boardC5 1 0 = other Cell.X ∧
    boardC5 2 0 = Cell.empty ∧
    (∀ m ∈ get_valid_moves boardC5,
      check_winner (setCell boardC5 m Cell.X) Cell.X = false) ∧
    get_ai_move boardC5 Cell.X = some (0, 2) ∧
    ((0, 2) : Fin 3 × Fin 3) ≠ (2, 0) :=
  ⟨by decide, by decide, by decide, by decide, by decide, boardC5_move, by decide⟩

/-- C5, amended. If the opponent holds two cells of a winning line whose
third cell is empty, no legal move gives the engine an immediate win, and
blocking that third cell does not itself lose (its score is at least 0),
then `get_ai_move` returns the blocking cell. -/
theorem C5_amended_forced_block (b : Board) (ai : Cell)
    (c1 c2 cb : Fin 3 × Fin 3)
    (hline : ∃ t ∈ winLines,
      ({c1, c2, cb} : Finset (Fin 3 × Fin 3)) = {t.1, t.2.1, t.2.2})
    (h1 : b c1.1 c1.2 = other ai) (h2 : b c2.1 c2.2 = other ai)
    (hcb : b cb.1 cb.2 = Cell.empty)
    (hnowin : ∀ m ∈ get_valid_moves b, check_winner (setCell b m ai) ai = false)
    (hblock : 0 ≤ moveScore b ai cb) :
    get_ai_move b ai = some cb := by
  obtain ⟨t, ht, hfe⟩ := hline
  have hcbv : cb ∈ get_valid_moves b := mem_get_valid_moves.mpr hcb
  have hc1cb : c1 ≠ cb := by
    intro he
    rw [he, hcb] at h1
    exact other_ne_empty ai h1.symm
  have hc2cb : c2 ≠ cb := by
    intro he
    rw [he, hcb] at h2
    exact other_ne_empty ai h2.symm
  apply get_ai_move_eq_of_unique b ai cb hcbv
  intro m hm hmne
  have hm_e : b m.1 m.2 = Cell.empty := mem_get_valid_moves.mp hm
  have hc1m : c1 ≠ m := by
    intro he
    rw [he, hm_e] at h1
    exact other_ne_empty ai h1.symm
  have hc2m : c2 ≠ m := by
    intro he
    rw [he, hm_e] at h2
    exact other_ne_empty ai h2.symm
  have hw_ai : check_winner (setCell b m ai) ai = false := hnowin m hm
  have hcbb2 : setCell b m ai cb.1 cb.2 = Cell.empty := by
    rw [setCell_apply_of_ne b m ai cb (Ne.symm hmne)]
    exact hcb
  have hcbv2 : cb ∈ get_valid_moves (setCell b m ai) := mem_get_valid_moves.mpr hcbb2
  have hscore : moveScore b ai m = -1 := by
    by_cases hwo : check_winner (setCell b m ai) (other ai) = true
    · exact minimaxAux_win_other 9 (setCell b m ai) 0 false ai hw_ai hwo
    · have hwo2 : check_winner (setCell b m ai) (other ai) = false := by simpa using hwo
      have hfull2 : is_full (setCell b m ai) = false := is_full_false_of_mem hcbv2
      have hval : ∀ u : Fin 3 × Fin 3, u = c1 ∨ u = c2 ∨ u = cb →
          setCell (setCell b m ai) cb (other ai) u.1 u.2 = other ai := by
        intro u hu
        rcases hu with hu | hu | hu
        · rw [hu, setCell_apply_of_ne _ cb (other ai) c1 hc1cb,
            setCell_apply_of_ne b m ai c1 hc1m]
          exact h1
        · rw [hu, setCell_apply_of_ne _ cb (other ai) c2 hc2cb,
            setCell_apply_of_ne b m ai c2 hc2m]
          exact h2
        · rw [hu]
          exact setCell_apply_self _ cb (other ai)
      have ht1 : t.1 = c1 ∨ t.1 = c2 ∨ t.1 = cb := by
        have hmem : t.1 ∈ ({c1, c2, cb} : Finset (Fin 3 × Fin 3)) := by
          rw [hfe]
          exact Finset.mem_insert_self _ _
        simpa [Finset.mem_insert, Finset.mem_singleton] using hmem
      have ht2 : t.2.1 = c1 ∨ t.2.1 = c2 ∨ t.2.1 = cb := by
        have hmem : t.2.1 ∈ ({c1, c2, cb} : Finset (Fin 3 × Fin 3)) := by
          rw [hfe]
          exact Finset.mem_insert_of_mem (Finset.mem_insert_self _ _)
        simpa [Finset.mem_insert, Finset.mem_singleton] using hmem
      have ht3 : t.2.2 = c1 ∨ t.2.2 = c2 ∨ t.2.2 = cb := by
        have hmem : t.2.2 ∈ ({c1, c2, cb} : Finset (Fin 3 × Fin 3)) := by
          rw [hfe]
          exact Finset.mem_insert_of_mem
            (Finset.mem_insert_of_mem (Finset.mem_singleton_self _))
        simpa [Finset.mem_insert, Finset.mem_singleton] using hmem
      have hwin2 : check_winner (setCell (setCell b m ai) cb (other ai)) (other ai)
          = true :=
        (check_winner_iff_line _ (other ai)).mpr
          ⟨t, ht, hval t.1 ht1, hval t.2.1 ht2, hval t.2.2 ht3⟩
      have hnai2 : check_winner (setCell (setCell b m ai) cb (other ai)) ai = false := by
        by_contra hx
        have hx2 : check_winner (setCell (setCell b m ai) cb (other ai)) ai = true := by
          simpa using hx
        have hcontra := check_winner_setCell_ne (setCell b m ai) cb (other ai) ai
          (other_ne_self ai) hx2
        rw [hw_ai] at hcontra
        cases hcontra
      have hreply : minimaxAux 9 (setCell (setCell b m ai) cb (other ai)) 1 true ai
          = -1 :=
        minimaxAux_win_other 8 _ 1 true ai hnai2 hwin2
      have hle : moveScore b ai m ≤ -1 := by
        show minimax (setCell b m ai) 0 false ai ≤ -1
        rw [show minimax (setCell b m ai) 0 false ai =
            minimaxAux (9 + 1) (setCell b m ai) 0 false ai from rfl,
          minimaxAux_min_unfold 9 (setCell b m ai) 0 ai hw_ai hwo2 hfull2]
        exact le_of_le_of_eq (foldl_min_of_mem _ _ _ _ hcbv2) hreply
      have hge := (moveScore_range b ai m).1
      omega
  rw [hscore]
  linarith

/-- Witness for the amended C5 on `boardC5w`: blocking row 0 at (0, 2)
does not lose, so it is chosen. -/
theorem C5_amended_witness : get_ai_move boardC5w Cell.X = some (0, 2) :=
  C5_amended_forced_block boardC5w Cell.X (0, 0) (0, 1) (0, 2)
    ⟨((0, 0), (0, 1), (0, 2)), by decide, by decide⟩
    (by decide) (by decide) (by decide) (by decide)
    (le_moveScore_of boardC5w Cell.X (0, 2) 0 (by decide))

/-- C6. On a board with zero legal moves `get_ai_move` produces no
coordinate: the selection loop never runs, `best_move` stays `None`, and
`random.choice` of the empty move list raises (modelled `none`). -/
theorem C6_full_board_rejection (b : Board) (ai : Cell)
    (h : get_valid_moves b = []) : get_ai_move b ai = none :=
  get_ai_move_nil b ai h

/-- Witness for C6 on a concrete full board. -/
theorem C6_witness : get_ai_move fullBoard Cell.X = none :=
  C6_full_board_rejection fullBoard Cell.X (by decide)

/-- C7, counterexample. Clicking the occupied cell (0, 0) of `gStateC7`
does not fail: `make_move` returns normally with the state unchanged — the
move is silently ignored, and no InvalidMove-kind error reaches the
caller. -/
theorem C7_counterexample :
    gStateC7.board 0 0 ≠ Cell.empty ∧ make_move gStateC7 0 0 = some gStateC7 := by
  constructor
  · decide
  · decide

/-- C7, amended. A move targeting an in-range occupied cell is silently
ignored: `make_move` returns normally with the whole state (board and
current player) unchanged, and in particular never applies the move to a
different cell; no error condition is surfaced. -/
theorem C7_amended_occupied_ignored (g : GState) (row col : Int) (r c : Fin 3)
    (hrow : pyIndex row = some r) (hcol : pyIndex col = some c)
    (hocc : ¬ g.board r c = Cell.empty) :
    make_move g row col = some g := by
  unfold make_move
  rw [hrow, hcol]
  simp [hocc]

/-- Witness for the amended C7. -/
theorem C7_amended_witness : make_move gStateC7 0 0 = some gStateC7 :=
  C7_amended_occupied_ignored gStateC7 0 0 0 0 (by decide) (by decide) (by decide)

theorem pyIndex_none (i : Int) (h : i < -3 ∨ 2 < i) : pyIndex i = none := by
  unfold pyIndex
  rw [dif_neg (by omega), dif_neg (by omega)]

/-- C8, counterexample. The coordinate row = -1 is outside [0, 2], yet
`make_move` on the fresh state succeeds — Python's negative indexing
silently remaps it to row 2, and the move is applied at (2, 2). -/
theorem C8_counterexample :
    ¬ (0 ≤ (-1 : Int) ∧ (-1 : Int) ≤ 2) ∧
    make_move gStateC8 (-1) (-1) =
      some { board := setCell emptyBoard (2, 2) Cell.X
             current_player := Cell.O
             ai_player := some Cell.O
             game_over := false } := by
  constructor
  · decide
  · decide

/-- C8, amended. Coordinates outside Python's accepted index range
[-3, 2] make `make_move` fail with an IndexError (modelled `none`) before
any state change; coordinates in [-3, -1] are not rejected but silently
wrapped Python-style from the end of the list. -/
theorem C8_amended_out_of_range (g : GState) (row col : Int)
    (h : row < -3 ∨ 2 < row ∨ col < -3 ∨ 2 < col) :
    make_move g row col = none := by
  unfold make_move
  rcases h with h | h | h | h
  · rw [pyIndex_none row (Or.inl h)]
  · rw [pyIndex_none row (Or.inr h)]
  · rw [pyIndex_none col (Or.inl h)]
    cases pyIndex row <;> rfl
  · rw [pyIndex_none col (Or.inr h)]
    cases pyIndex row <;> rfl

/-- Witness for the amended C8. -/
theorem C8_amended_witness : make_move gStateC8 3 0 = none :=
  C8_amended_out_of_range gStateC8 3 0 (by omega)

/-- C9. After the stateful search returns — `minimax` or `get_ai_move`
with the source's shared mutable grid threaded explicitly — the caller's
board is cell-for-cell the board it passed in: every mutate-then-undo pair
restores the grid. -/
theorem C9_search_restores_board :
    (∀ (f : Nat) (b : Board) (d : Nat) (im : Bool) (ai : Cell),
      (minimaxState f b d im ai).2 = b) ∧
    (∀ (b : Board) (ai : Cell), (get_ai_moveState b ai).2 = b) :=
  ⟨minimaxState_board, get_ai_moveState_board⟩

/-- C10. On any board with at least one legal move, the result of
`get_ai_move` does not depend on the function standing in for
`random.choice`: the randomness in the final fallback never influences the
selected move, so two invocations on identical inputs return the identical
move. -/
theorem C10_selectMove_no_randomness (b : Board) (ai : Cell)
    (choice1 choice2 : List (Fin 3 × Fin 3) → Option (Fin 3 × Fin 3))
    (h : get_valid_moves b ≠ []) :
    get_ai_moveWith choice1 b ai = get_ai_moveWith choice2 b ai := by
  rw [get_ai_moveWith_eq_spec choice1 b ai h, get_ai_moveWith_eq_spec choice2 b ai h]

/-- Witness for C10 with two visibly different choice functions. -/
theorem C10_witness :
    get_ai_moveWith (fun l => l.head?) gameB8 Cell.X =
    get_ai_moveWith (fun _ => some (1, 1)) gameB8 Cell.X :=
  C10_selectMove_no_randomness gameB8 Cell.X _ _ (by decide)

end TicTacToe
